import Mathlib

/-!
# neural-amp-plugin: the delay / dry-wet / bypass processing core

Shallow embedding of `src/main/plug/neural_amp_plugin.cpp` (class
`lsp::plugins::neural_amp_plugin`), of the port tables of
`src/main/meta/neural_amp_plugin.cpp` and of the constants of
`include/private/meta/neural_amp_plugin.h`.

Conventions of the embedding.

* A `float` value is a rational (`ℚ`) and arithmetic on `float` is exact (no rounding,
  no NaN), with one exception: the value of the delay meter of `process`
  (`samples_to_millis`), the one computation whose rounding matters to a property
  stated here, rounds every operation to single precision (`to_float`).
* A `plug::IPort *` is `Option Nat`: `none` is `NULL`, `some k` designates the
  `k`-th port object of the host (`Host`).  Every port owns its own audio
  buffer; hosts that hand the same memory to an input and an output port are
  not represented.
* Raw memory accesses are checked: an operation that reads or writes past the
  end of a buffer, or dereferences `NULL`, yields a `Fault` instead of a state
  (undefined behaviour in C++).
* `dspu::Delay`, `dspu::Bypass` and the `dsp::` primitives belong to external
  libraries; their models follow the specification (sections 4.1 and 4.2).
-/

namespace NeuralAmp

/-! ## Faults and checked memory -/

/-- Memory objects that the plugin code addresses. -/
inductive Region
  | vBuffer
  | input
  | output
  | ports
  | vChannels
  | host
deriving DecidableEq, Repr

/-- Operations that address memory. -/
inductive Op
  | process_ramping
  | fmadd_k3
  | abs_max
  | bypass_process
  | index
deriving DecidableEq, Repr

/-- Outcome of an execution that leaves defined behaviour.  `overrun op r need cap`:
operation `op` addressed `need` elements of region `r`, which holds only `cap`. -/
inductive Fault
  | null_deref
  | overrun (op : Op) (r : Region) (need cap : Nat)
  | out_of_fuel
deriving DecidableEq, Repr

/-- Read of `count` elements starting at `buf + off`. -/
def rd (op : Op) (r : Region) (buf : List ℚ) (off count : Nat) : Except Fault (List ℚ) :=
  if off + count ≤ buf.length then .ok ((buf.drop off).take count)
  else .error (.overrun op r (off + count) buf.length)

/-- Write of the elements `xs` starting at `buf + off`. -/
def wr (op : Op) (r : Region) (buf : List ℚ) (off : Nat) (xs : List ℚ) :
    Except Fault (List ℚ) :=
  if off + xs.length ≤ buf.length then
    .ok (buf.take off ++ xs ++ buf.drop (off + xs.length))
  else .error (.overrun op r (off + xs.length) buf.length)

/-- Dereference of a pointer that may be `NULL`. -/
def nonnull {α : Type} : Option α → Except Fault α
  | some a => .ok a
  | none => .error .null_deref

/-- Element access `arr[i]` of a raw array. -/
def index {α : Type} (r : Region) (arr : List α) (i : Nat) : Except Fault α :=
  match arr[i]? with
  | some a => .ok a
  | none => .error (.overrun .index r (i + 1) arr.length)

/-- Loop `for (size_t i=0; i<n; ++i) body`, threading the state `s`. -/
def for_each {σ : Type} (n : Nat) (body : Nat → σ → Except Fault σ) (s : σ) :
    Except Fault σ :=
  (List.range n).foldlM (fun s i => body i s) s

/-! ## Constants -/

/-- The size of temporary buffer for audio processing (`#define BUFFER_SIZE 0x1000U`). -/
def BUFFER_SIZE : Nat := 0x1000

/-- Upper bound of the delay control, in samples (`meta::neural_amp_plugin::SAMPLES_MAX`). -/
def SAMPLES_MAX : ℚ := 10000

/-- Lower bound of the delay control, in samples (`meta::neural_amp_plugin::SAMPLES_MIN`). -/
def SAMPLES_MIN : ℚ := 0

/-- Largest delay time in milliseconds (`meta::neural_amp_plugin::DELAY_OUT_MAX_TIME`). -/
def DELAY_OUT_MAX_TIME : ℚ := 10000

/-! ## Primitives of the external libraries -/

/-- Template `lsp_min(a, b)`: `(a < b) ? a : b`. -/
def lsp_min (a b : Nat) : Nat := if a < b then a else b

/-- Template `lsp_max(a, b)`: `(a > b) ? a : b`. -/
def lsp_max (a b : ℚ) : ℚ := if a > b then a else b

/-- Primitive `dsp::abs_max(src, count)` on the `count` elements read: the largest
absolute value, `0` for an empty range. -/
def abs_max (src : List ℚ) : ℚ := src.foldl (fun m x => lsp_max m |x|) 0

/-- Primitive `dsp::fmadd_k3(dst, src, k, count)` on the elements read:
`dst[i] = dst[i] + src[i] * k`. -/
def fmadd_k3 (dst src : List ℚ) (k : ℚ) : List ℚ :=
  List.zipWith (fun d s => d + s * k) dst src

/-- Conversion of a `float` to an integer type: truncation toward zero. -/
def trunc (q : ℚ) : Int := Int.tdiv q.num q.den

/-- Conversion of a `ssize_t` to `size_t` (64 bits): reduction modulo `2^64`. -/
def to_size_t (n : Int) : Nat := (n % (2 ^ 64 : Int)).toNat

/-- Function `dspu::millis_to_samples(sr, time)`: `time * 0.001 * sr`. -/
def millis_to_samples (sr : Int) (time : ℚ) : ℚ := time * (1 / 1000) * sr

/-- Number of halvings that bring `n` below 2, by recursion on `fuel`: the position of
the leading bit of `n` when `n ≤ fuel`. -/
def log2_steps : Nat → Nat → Nat
  | 0, _ => 0
  | fuel + 1, n => if 2 ≤ n then log2_steps fuel (n / 2) + 1 else 0

/-- Binary exponent of a nonzero rational: the `e` with `2^e ≤ |x| < 2^(e+1)`. -/
def ilog2 (x : ℚ) : Int :=
  let d : Int := (log2_steps x.num.natAbs x.num.natAbs : Int) - (log2_steps x.den x.den : Int)
  if (2 : ℚ) ^ d ≤ |x| then d else d - 1

/-- Integer nearest to `m`, a tie going to the even neighbour. -/
def round_even (m : ℚ) : Int :=
  let f := ⌊m⌋
  let r := m - f
  if r < 1 / 2 then f
  else if 1 / 2 < r then f + 1
  else if f % 2 = 0 then f else f + 1

/-- Value of type `float` (IEEE 754 single precision, round to nearest, ties to even)
that a conversion or an arithmetic operation with the exact result `x` yields: 24
significant bits, that is a multiple of `2^(e-23)` for the binary exponent `e` of `x`,
and of `2^-149` below `2^-126` (subnormal numbers).  Results of magnitude `2^128` or
more, which round to infinity, are not represented; `samples_to_millis_finite` shows
that the computation below stays clear of them. -/
def to_float (x : ℚ) : ℚ :=
  if x = 0 then 0
  else
    let e := max (ilog2 x) (-126)
    round_even (x / 2 ^ (e - 23)) * 2 ^ (e - 23)

/-- Modelled from the spec: `dspu::samples_to_millis(sr, samples)` of the external
lsp-dsp-units library (absent from src/), "the delay length expressed in milliseconds
(derived from sample count and current sample rate)": `(samples / sr) * 1000.0f` on
`float` operands.  The two arguments are converted to `float` and every operation
rounds to `float`; line 296 stores the result in `float millis`. -/
def samples_to_millis (sr : Int) (samples : ℚ) : ℚ :=
  to_float (to_float (to_float samples / to_float sr) * 1000)

/-! ## Delay Line -/

/-- Modelled from the spec: `dspu::Delay`, a class of the external lsp-dsp-units
library that is absent from src/ (spec section 4.1).  `nCap` is the reserved
capacity, `vHist` the stored samples (most recent first, at most `nCap + 1` of
them, positions never written read as zero), `nDelay` the delay length in effect
and `nRequest` the length asked for by `set_delay`. -/
structure Delay where
  nCap : Nat
  vHist : List ℚ
  nDelay : Nat
  nRequest : Nat
deriving DecidableEq, Repr

namespace Delay

/-- Modelled from the spec: `Delay::construct()`, an empty line without capacity. -/
def construct : Delay := { nCap := 0, vHist := [], nDelay := 0, nRequest := 0 }

/-- Modelled from the spec: `Delay::init(max_samples)` reserves capacity for the
largest delay and clears the line. -/
def init (max_samples : Nat) : Delay :=
  { nCap := max_samples, vHist := [], nDelay := 0, nRequest := 0 }

/-- Modelled from the spec: `Delay::destroy()` releases the storage. -/
def destroy (_d : Delay) : Delay := construct

/-- Modelled from the spec: `Delay::set_delay(n)` records the requested length,
clamped at the capacity; it takes effect during the next processing pass. -/
def set_delay (d : Delay) (n : Nat) : Delay := { d with nRequest := min n d.nCap }

/-- Modelled from the spec: lag of sample `i` of a pass of `count` samples whose
delay ramps linearly from `a` to `b` (the last sample of the pass lags by `b`). -/
def ramp_lag (a b i count : Nat) : Nat :=
  Int.toNat ((a : Int) + (((b : Int) - (a : Int)) * ((i : Int) + 1)) / (count : Int))

/-- Modelled from the spec: write of one input sample at the write cursor; the
circular buffer keeps the last `nCap + 1` samples. -/
def feed (d : Delay) (x : ℚ) : Delay := { d with vHist := (x :: d.vHist).take (d.nCap + 1) }

/-- Modelled from the spec: sample loop of `process_ramping`; sample `i` is written to
the line and the sample lagging by `ramp_lag a b i count` is read back, scaled. -/
def ramp_loop (scale : ℚ) (a b count : Nat) : Nat → List ℚ → Delay → Delay × List ℚ
  | _, [], d => (d, [])
  | i, x :: xs, d =>
    let d1 := d.feed x
    let y := d1.vHist.getD (ramp_lag a b i count) 0 * scale
    let r := ramp_loop scale a b count (i + 1) xs d1
    (r.1, y :: r.2)

/-- Modelled from the spec: `Delay::process_ramping(out, in, scale, requested_delay, count)`
on the `count` samples `src` read from `in`; returns the line and the `count` samples
for `out`.  The request is clamped at the capacity. -/
def process_ramping (d : Delay) (src : List ℚ) (scale : ℚ) (delay : Nat) : Delay × List ℚ :=
  let target := min delay d.nCap
  let r := ramp_loop scale d.nDelay target src.length 0 src d
  ({ r.1 with nDelay := target }, r.2)

end Delay

/-! ## Bypass Crossfader -/

/-- Modelled from the spec: `dspu::Bypass`, a class of the external lsp-dsp-units
library that is absent from src/ (spec section 4.2), with a linear crossfade.
`fGain` is the crossfade position (share of the wet signal: `0` fully dry, `1` fully
wet), `fDelta` the change of position per sample, `bBypass` the requested target. -/
structure Bypass where
  fGain : ℚ
  fDelta : ℚ
  bBypass : Bool
deriving DecidableEq, Repr

namespace Bypass

/-- Modelled from the spec: crossfade time in milliseconds; the spec fixes no value,
5 ms is taken. -/
def RAMP_TIME : ℚ := 5

/-- Modelled from the spec: `Bypass::construct()`, fully wet, no ramp configured. -/
def construct : Bypass := { fGain := 1, fDelta := 0, bBypass := false }

/-- Modelled from the spec: `Bypass::init(sample_rate)` configures the ramp duration
in samples (at least one sample) for the rate. -/
def init (b : Bypass) (sr : Int) : Bypass :=
  let len := lsp_max (millis_to_samples sr RAMP_TIME) 1
  { b with fDelta := 1 / len }

/-- Modelled from the spec: `Bypass::set_bypass(active)` sets the target of the
crossfade; the position is kept, so a repeated request does not restart a ramp. -/
def set_bypass (b : Bypass) (active : Bool) : Bypass := { b with bBypass := active }

/-- Modelled from the spec: advance of the crossfade position by one sample toward
the target, stopping at the limit. -/
def advance (b : Bypass) : Bypass :=
  if b.bBypass then { b with fGain := max 0 (b.fGain - b.fDelta) }
  else { b with fGain := min 1 (b.fGain + b.fDelta) }

/-- Modelled from the spec: `Bypass::process(out, dry, wet, count)` on the samples
read from `dry` and `wet`: per-sample blend at the current position, which then
advances. -/
def process : Bypass → List ℚ → List ℚ → Bypass × List ℚ
  | b, d :: ds, w :: ws =>
    let r := process b.advance ds ws
    (r.1, (d + (w - d) * b.fGain) :: r.2)
  | b, _, _ => (b, [])

end Bypass

/-! ## Ports of the host framework -/

/-- Modelled from the spec: `plug::IPort` of the host framework (spec section 6):
`value()` / `set_value()` act on `fValue`, `buffer<float>()` returns `pBuffer`
(`none` when the port has no buffer). -/
structure IPort where
  fValue : ℚ
  pBuffer : Option (List ℚ)
deriving DecidableEq, Repr

/-- The port objects of the host; a port pointer `some k` designates `host[k]`. -/
abbrev Host := List IPort

/-- Access `p->...` through a port pointer. -/
def deref (h : Host) (p : Option Nat) : Except Fault IPort := do
  let k ← nonnull p
  index .host h k

/-- Call `p->set_value(v)`. -/
def set_value (h : Host) (p : Option Nat) (v : ℚ) : Except Fault Host := do
  let k ← nonnull p
  let port ← index .host h k
  pure (h.set k { port with fValue := v })

/-- Store of the samples written through the pointer returned by `p->buffer<float>()`. -/
def set_buffer (h : Host) (p : Option Nat) (buf : List ℚ) : Except Fault Host := do
  let k ← nonnull p
  let port ← index .host h k
  pure (h.set k { port with pBuffer := some buf })

/-! ## Metadata (`src/main/meta/neural_amp_plugin.cpp`) -/

/-- Role of a declared port, as far as the plugin inspects it. -/
inductive role_t
  | R_AUDIO_IN
  | R_AUDIO_OUT
  | R_CONTROL
  | R_METER
deriving DecidableEq, Repr

/-- Entry of a port table (`meta::port_t`): identifier and role. -/
structure port_t where
  id : String
  role : role_t
deriving DecidableEq, Repr

/-- Predicate `meta::is_audio_in_port(p)`. -/
def is_audio_in_port (p : port_t) : Bool := p.role = role_t.R_AUDIO_IN

/-- Modelled from the spec: the framework macro `PORTS_MONO_PLUGIN` (absent from src/)
declares one audio input and one audio output. -/
def PORTS_MONO_PLUGIN : List port_t :=
  [{ id := "in", role := .R_AUDIO_IN }, { id := "out", role := .R_AUDIO_OUT }]

/-- Modelled from the spec: the framework macro `PORTS_STEREO_PLUGIN` (absent from src/)
declares two audio inputs followed by two audio outputs. -/
def PORTS_STEREO_PLUGIN : List port_t :=
  [{ id := "in_l", role := .R_AUDIO_IN }, { id := "in_r", role := .R_AUDIO_IN },
   { id := "out_l", role := .R_AUDIO_OUT }, { id := "out_r", role := .R_AUDIO_OUT }]

/-- Table `neural_amp_plugin_mono_ports`, the entries before `PORTS_END`. -/
def neural_amp_plugin_mono_ports : List port_t :=
  PORTS_MONO_PLUGIN ++
  [{ id := "bypass", role := .R_CONTROL },
   { id := "d_in", role := .R_CONTROL },
   { id := "dry", role := .R_CONTROL },
   { id := "wet", role := .R_CONTROL },
   { id := "g_out", role := .R_CONTROL },
   { id := "d_out", role := .R_METER },
   { id := "min", role := .R_METER },
   { id := "mout", role := .R_METER }]

/-- Table `neural_amp_plugin_stereo_ports`, the entries before `PORTS_END`. -/
def neural_amp_plugin_stereo_ports : List port_t :=
  PORTS_STEREO_PLUGIN ++
  [{ id := "bypass", role := .R_CONTROL },
   { id := "d_in", role := .R_CONTROL },
   { id := "dry", role := .R_CONTROL },
   { id := "wet", role := .R_CONTROL },
   { id := "g_out", role := .R_CONTROL },
   { id := "d_out", role := .R_METER },
   { id := "min_l", role := .R_METER },
   { id := "mout_l", role := .R_METER },
   { id := "min_r", role := .R_METER },
   { id := "mout_r", role := .R_METER }]

/-! ## The plugin (`src/main/plug/neural_amp_plugin.cpp`) -/

/-- Structure `channel_t` of `include/private/plugins/neural_amp_plugin.h`. -/
structure channel_t where
  sLine : Delay
  sBypass : Bypass
  nDelay : Int
  fDryGain : ℚ
  fWetGain : ℚ
  pIn : Option Nat
  pOut : Option Nat
  pDelay : Option Nat
  pDry : Option Nat
  pWet : Option Nat
  pOutDelay : Option Nat
  pInLevel : Option Nat
  pOutLevel : Option Nat
deriving DecidableEq, Repr

/-- Fields of class `neural_amp_plugin`, with `fSampleRate` of its base `plug::Module`.
`pData` tells whether the aligned block is allocated. -/
structure neural_amp_plugin where
  nChannels : Nat
  vChannels : Option (List channel_t)
  vBuffer : Option (List ℚ)
  pBypass : Option Nat
  pGainOut : Option Nat
  pData : Option Unit
  fSampleRate : Int
deriving DecidableEq, Repr

/-- Content of a `channel_t` in freshly allocated memory, before `init` fills it. -/
def channel_t.raw : channel_t :=
  { sLine := Delay.construct, sBypass := Bypass.construct, nDelay := 0,
    fDryGain := 0, fWetGain := 0, pIn := none, pOut := none, pDelay := none,
    pDry := none, pWet := none, pOutDelay := none, pInLevel := none, pOutLevel := none }

/-- Statement `channel_t *c = &vChannels[i]` followed by the update `f` of `*c`. -/
def with_channel (v : Option (List channel_t)) (i : Nat)
    (f : channel_t → Except Fault channel_t) : Except Fault (Option (List channel_t)) := do
  let chs ← nonnull v
  let c ← index .vChannels chs i
  let c1 ← f c
  pure (some (chs.set i c1))

/-- Expression `ports[k]` of `init`. -/
def port_at (ports : List Nat) (k : Nat) : Except Fault (Option Nat) := do
  let p ← index .ports ports k
  pure (some p)

/-- Constructor `neural_amp_plugin(meta)`: the number of channels is the number of audio
inputs of the port table; every pointer is `NULL`. -/
def neural_amp_plugin.construct (table : List port_t) : neural_amp_plugin :=
  { nChannels := (table.filter is_audio_in_port).length,
    vChannels := none, vBuffer := none, pBypass := none, pGainOut := none,
    pData := none, fSampleRate := 0 }

/-- First loop of `init` (lines 105-125): in-place construction of the processors
and initial values of the fields of channel `i`. -/
def init_channel (c : channel_t) : channel_t :=
  { c with sLine := Delay.construct, sBypass := Bypass.construct, nDelay := 0,
           fDryGain := 0, fWetGain := 0, pIn := none, pOut := none, pDelay := none,
           pDry := none, pWet := none, pOutDelay := none }

/-- State of the port binding of `init`: the channel array and the cursor `port_id`. -/
structure BindState where
  vChannels : Option (List channel_t)
  port_id : Nat
deriving DecidableEq, Repr

/-- Loop of lines 132-133: `vChannels[i].pIn = ports[port_id++]`. -/
def bind_in (ports : List Nat) (i : Nat) (s : BindState) : Except Fault BindState := do
  let p ← port_at ports s.port_id
  let v ← with_channel s.vChannels i (fun c => pure { c with pIn := p })
  pure { vChannels := v, port_id := s.port_id + 1 }

/-- Loop of lines 136-137: `vChannels[i].pOut = ports[port_id++]`. -/
def bind_out (ports : List Nat) (i : Nat) (s : BindState) : Except Fault BindState := do
  let p ← port_at ports s.port_id
  let v ← with_channel s.vChannels i (fun c => pure { c with pOut := p })
  pure { vChannels := v, port_id := s.port_id + 1 }

/-- Loop of lines 143-163: channel 0 takes the delay, dry and wet controls from the
port array, every other channel copies the pointers of channel 0. -/
def bind_controls (ports : List Nat) (i : Nat) (s : BindState) : Except Fault BindState :=
  if i > 0 then do
    let chs ← nonnull s.vChannels
    let pc ← index .vChannels chs 0
    let v ← with_channel s.vChannels i
      (fun c => pure { c with pDelay := pc.pDelay, pDry := pc.pDry, pWet := pc.pWet })
    pure { s with vChannels := v }
  else do
    let p1 ← port_at ports s.port_id
    let p2 ← port_at ports (s.port_id + 1)
    let p3 ← port_at ports (s.port_id + 2)
    let v ← with_channel s.vChannels i
      (fun c => pure { c with pDelay := p1, pDry := p2, pWet := p3 })
    pure { vChannels := v, port_id := s.port_id + 3 }

/-- Loop of lines 169-184: channel 0 takes the output-delay meter from the port array,
every other channel copies the pointer of channel 0; the two level meters are taken
from the port array for every channel. -/
def bind_meters (ports : List Nat) (i : Nat) (s : BindState) : Except Fault BindState := do
  let s1 ← (if i > 0 then do
      let chs ← nonnull s.vChannels
      let pc ← index .vChannels chs 0
      let v ← with_channel s.vChannels i (fun c => pure { c with pOutDelay := pc.pOutDelay })
      pure { s with vChannels := v }
    else do
      let p ← port_at ports s.port_id
      let v ← with_channel s.vChannels i (fun c => pure { c with pOutDelay := p })
      pure { vChannels := v, port_id := s.port_id + 1 })
  let q1 ← port_at ports s1.port_id
  let q2 ← port_at ports (s1.port_id + 1)
  let v ← with_channel s1.vChannels i (fun c => pure { c with pInLevel := q1, pOutLevel := q2 })
  pure { vChannels := v, port_id := s1.port_id + 2 }

/-- Method `neural_amp_plugin::init(wrapper, ports)` after the allocation succeeded
(lines 99-185); returns the plugin and the final value of `port_id`. -/
def init_bind (ports : List Nat) (e : neural_amp_plugin) :
    Except Fault (neural_amp_plugin × Nat) := do
  let v0 : Option (List channel_t) := some (List.replicate e.nChannels channel_t.raw)
  let vBuffer : Option (List ℚ) := some (List.replicate BUFFER_SIZE 0)
  let v1 ← for_each e.nChannels (fun i v => with_channel v i (fun c => pure (init_channel c))) v0
  let s2 ← for_each e.nChannels (bind_in ports) { vChannels := v1, port_id := 0 }
  let s3 ← for_each e.nChannels (bind_out ports) s2
  let pBypass ← port_at ports s3.port_id
  let s4 ← for_each e.nChannels (bind_controls ports)
    { vChannels := s3.vChannels, port_id := s3.port_id + 1 }
  let pGainOut ← port_at ports s4.port_id
  let s5 ← for_each e.nChannels (bind_meters ports)
    { vChannels := s4.vChannels, port_id := s4.port_id + 1 }
  pure ({ e with vChannels := s5.vChannels, vBuffer := vBuffer, pBypass := pBypass,
                 pGainOut := pGainOut, pData := some () }, s5.port_id)

/-- Method `neural_amp_plugin::init(wrapper, ports)`.  `alloc_ok` tells whether
`alloc_aligned` returned memory; when it did not, `init` returns at once (line 96). -/
def init (alloc_ok : Bool) (ports : List Nat) (e : neural_amp_plugin) :
    Except Fault neural_amp_plugin :=
  if alloc_ok then do
    let r ← init_bind ports e
    pure r.1
  else pure e

/-- Method `neural_amp_plugin::destroy()`. -/
def destroy (e : neural_amp_plugin) : Except Fault neural_amp_plugin := do
  let e1 ← (match e.vChannels with
    | some chs => do
      let _ ← for_each e.nChannels
        (fun i v => with_channel v i (fun c => pure { c with sLine := c.sLine.destroy }))
        (some chs)
      pure { e with vChannels := none }
    | none => pure e)
  let e2 := { e1 with vBuffer := none }
  match e2.pData with
  | some _ => pure { e2 with pData := none }
  | none => pure e2

/-- Largest delay in samples at the rate `sr`, the argument of `sLine.init` in
`update_sample_rate`: `dspu::millis_to_samples(sr, DELAY_OUT_MAX_TIME)` converted to
`size_t`. -/
def max_delay_samples (sr : Int) : Nat :=
  (trunc (millis_to_samples sr DELAY_OUT_MAX_TIME)).toNat

/-- Body of the loop of `update_sample_rate` for one channel (lines 217-219). -/
def rate_channel (sr : Int) (c : channel_t) : channel_t :=
  { c with sLine := Delay.init (max_delay_samples sr), sBypass := c.sBypass.init sr }

/-- Method `neural_amp_plugin::update_sample_rate(sr)`. -/
def update_sample_rate (sr : Int) (e : neural_amp_plugin) : Except Fault neural_amp_plugin := do
  let v ← for_each e.nChannels (fun i v => with_channel v i (fun c => pure (rate_channel sr c)))
    e.vChannels
  pure { e with vChannels := v }

/-- Body of the loop of `update_settings` for one channel (lines 232-239). -/
def update_channel (h : Host) (out_gain : ℚ) (bypass : Bool) (c : channel_t) :
    Except Fault channel_t := do
  let dry ← deref h c.pDry
  let wet ← deref h c.pWet
  let dly ← deref h c.pDelay
  let nDelay := trunc dly.fValue
  pure { c with fDryGain := dry.fValue * out_gain, fWetGain := wet.fValue * out_gain,
                nDelay := nDelay, sLine := c.sLine.set_delay (to_size_t nDelay),
                sBypass := c.sBypass.set_bypass bypass }

/-- Method `neural_amp_plugin::update_settings()`; `h` holds the port values. -/
def update_settings (h : Host) (e : neural_amp_plugin) : Except Fault neural_amp_plugin := do
  let g ← deref h e.pGainOut
  let b ← deref h e.pBypass
  let out_gain := g.fValue
  let bypass : Bool := decide (b.fValue ≥ 1 / 2)
  let v ← for_each e.nChannels
    (fun i v => with_channel v i (update_channel h out_gain bypass)) e.vChannels
  pure { e with vChannels := v }

/-- Variables of the chunk loop of `process` for one channel: the two processors, the
scratch buffer, the memory behind `out`, the running peaks and the counter `n`, which
is also the distance that `in` and `out` have advanced. -/
structure LoopState where
  sLine : Delay
  sBypass : Bypass
  vBuffer : Option (List ℚ)
  out : List ℚ
  in_gain : ℚ
  out_gain : ℚ
  n : Nat
deriving DecidableEq, Repr

/-- Dry-mix step of lines 272-273: `if (c->fDryGain > 0.0f) dsp::fmadd_k3(vBuffer, in,
c->fDryGain, count)`, with `in` at offset `n` of `inp`. -/
def dry_mix (fDryGain : ℚ) (buf inp : List ℚ) (n count : Nat) : Except Fault (List ℚ) :=
  if fDryGain > 0 then do
    let src ← rd .fmadd_k3 .input inp n count
    let dst ← rd .fmadd_k3 .vBuffer buf 0 count
    wr .fmadd_k3 .vBuffer buf 0 (fmadd_k3 dst src fDryGain)
  else pure buf

/-- Body of the chunk loop of `process` (lines 266-288). -/
def process_chunk (c : channel_t) (inp : List ℚ) (samples : Nat) (s : LoopState) :
    Except Fault LoopState := do
  let count := lsp_min (samples - s.n) BUFFER_SIZE
  -- c->sLine.process_ramping(vBuffer, in, c->fWetGain, c->nDelay, samples);
  let buf0 ← nonnull s.vBuffer
  let src ← rd .process_ramping .input inp s.n samples
  let line := s.sLine.process_ramping src c.fWetGain (to_size_t c.nDelay)
  let buf1 ← wr .process_ramping .vBuffer buf0 0 line.2
  -- if (c->fDryGain > 0.0f) dsp::fmadd_k3(vBuffer, in, c->fDryGain, count);
  let buf2 ← dry_mix c.fDryGain buf1 inp s.n count
  -- in_gain = lsp_max(in_gain, dsp::abs_max(in, samples));
  let a ← rd .abs_max .input inp s.n samples
  let in_gain := lsp_max s.in_gain (abs_max a)
  -- out_gain = lsp_max(out_gain, dsp::abs_max(vBuffer, samples));
  let b ← rd .abs_max .vBuffer buf2 0 samples
  let out_gain := lsp_max s.out_gain (abs_max b)
  -- c->sBypass.process(out, in, vBuffer, count);
  let dry ← rd .bypass_process .input inp s.n count
  let wet ← rd .bypass_process .vBuffer buf2 0 count
  let byp := s.sBypass.process dry wet
  let out ← wr .bypass_process .output s.out s.n byp.2
  pure { sLine := line.1, sBypass := byp.1, vBuffer := some buf2, out := out,
         in_gain := in_gain, out_gain := out_gain, n := s.n + count }

/-- Chunk loop `for (size_t n=0; n<samples; ) ...` of `process` (line 264); every
iteration advances `n` by at least one, so `samples` units of fuel are enough. -/
def process_loop (c : channel_t) (inp : List ℚ) (samples : Nat) :
    Nat → LoopState → Except Fault LoopState
  | 0, s => if s.n < samples then .error .out_of_fuel else .ok s
  | fuel + 1, s =>
    if s.n < samples then do
      let s1 ← process_chunk c inp samples s
      process_loop c inp samples fuel s1
    else .ok s

/-- Result of the processing of one channel: the channel, the scratch buffer and the
ports of the host. -/
structure ChannelResult where
  c : channel_t
  vBuffer : Option (List ℚ)
  host : Host
deriving DecidableEq, Repr

/-- Body of the channel loop of `process` (lines 248-297) for the channel `c`. -/
def process_channel (fSampleRate : Int) (samples : Nat) (c : channel_t)
    (vBuffer : Option (List ℚ)) (h : Host) : Except Fault ChannelResult := do
  let pin ← deref h c.pIn
  let pout ← deref h c.pOut
  match pin.pBuffer, pout.pBuffer with
  | some inp, some out =>
    let s ← process_loop c inp samples samples
      { sLine := c.sLine, sBypass := c.sBypass, vBuffer := vBuffer, out := out,
        in_gain := 0, out_gain := 0, n := 0 }
    let h1 ← set_buffer h c.pOut s.out
    let h2 ← set_value h1 c.pInLevel s.in_gain
    let h3 ← set_value h2 c.pOutLevel s.out_gain
    let h4 ← set_value h3 c.pOutDelay (samples_to_millis fSampleRate c.nDelay)
    pure { c := { c with sLine := s.sLine, sBypass := s.sBypass },
           vBuffer := s.vBuffer, host := h4 }
  | _, _ => pure { c := c, vBuffer := vBuffer, host := h }

/-- Plugin together with the ports of the host, the state on which `process` acts. -/
structure World where
  plug : neural_amp_plugin
  host : Host
deriving DecidableEq, Repr

/-- Iteration `i` of the channel loop of `process`. -/
def process_step (samples : Nat) (i : Nat) (w : World) : Except Fault World := do
  let chs ← nonnull w.plug.vChannels
  let c ← index .vChannels chs i
  let r ← process_channel w.plug.fSampleRate samples c w.plug.vBuffer w.host
  pure { plug := { w.plug with vChannels := some (chs.set i r.c), vBuffer := r.vBuffer },
         host := r.host }

/-- Method `neural_amp_plugin::process(samples)`. -/
def process (samples : Nat) (w : World) : Except Fault World :=
  for_each w.plug.nChannels (process_step samples) w

/-- Modelled from the spec: `plug::Module::set_sample_rate(sr)` of the host framework
(absent from src/) records the rate and calls `update_sample_rate(sr)`. -/
def set_sample_rate (sr : Int) (e : neural_amp_plugin) : Except Fault neural_amp_plugin :=
  update_sample_rate sr { e with fSampleRate := sr }

/-! ## Concrete hosts -/

deriving instance DecidableEq for Except

/-- Control or meter port holding the value `v`. -/
def control (v : ℚ) : IPort := { fValue := v, pBuffer := none }

/-- Audio port whose `buffer<float>()` is `b`. -/
def audio (b : Option (List ℚ)) : IPort := { fValue := 0, pBuffer := b }

/-- Ports of a mono instance, in the order of `neural_amp_plugin_mono_ports`. -/
def mono_host (inp out : Option (List ℚ)) (bypass d_in dry wet g_out d_out : ℚ) : Host :=
  [audio inp, audio out, control bypass, control d_in, control dry, control wet,
   control g_out, control d_out, control 0, control 0]

/-- Ports of a stereo instance, in the order of `neural_amp_plugin_stereo_ports`. -/
def stereo_host (in_l in_r out_l out_r : Option (List ℚ))
    (bypass d_in dry wet g_out d_out : ℚ) : Host :=
  [audio in_l, audio in_r, audio out_l, audio out_r, control bypass, control d_in,
   control dry, control wet, control g_out, control d_out,
   control 0, control 0, control 0, control 0]

/-- Mono instance brought up by the host: construction, `init` on the ports
`0 .. 9`, sample rate `sr`, then `update_settings` on the port values of `h`. -/
def mono_setup (sr : Int) (h : Host) : Except Fault World := do
  let e1 ← init true (List.range 10) (neural_amp_plugin.construct neural_amp_plugin_mono_ports)
  let e2 ← set_sample_rate sr e1
  let e3 ← update_settings h e2
  pure { plug := e3, host := h }

/-- Stereo instance brought up by the host: construction, `init` on the ports
`0 .. 13`, sample rate `sr`, then `update_settings` on the port values of `h`. -/
def stereo_setup (sr : Int) (h : Host) : Except Fault World := do
  let e1 ← init true (List.range 14) (neural_amp_plugin.construct neural_amp_plugin_stereo_ports)
  let e2 ← set_sample_rate sr e1
  let e3 ← update_settings h e2
  pure { plug := e3, host := h }

/-- Channel of the mono instance after `mono_setup sr` on a host whose delay and dry
controls are `0` and whose wet control and output gain are `1`. -/
def ch_mono (sr : Int) : channel_t :=
  { sLine := { nCap := (10 * sr).toNat, vHist := [], nDelay := 0, nRequest := 0 },
    sBypass := Bypass.construct.init sr, nDelay := 0, fDryGain := 0, fWetGain := 1,
    pIn := some 0, pOut := some 1, pDelay := some 3, pDry := some 4, pWet := some 5,
    pOutDelay := some 7, pInLevel := some 8, pOutLevel := some 9 }

/-- Block of 4097 samples, one more than the scratch buffer holds. -/
def long_block : Option (List ℚ) := some (List.replicate 4097 0)

/-- Closed form of `dry_mix` when its accesses stay in bounds: the scratch buffer after
the dry-mix step (proved equal in `dry_mix_ok`). -/
def mixed (g : ℚ) (buf inp : List ℚ) (n count : Nat) : List ℚ :=
  if g > 0 then fmadd_k3 (buf.take count) ((inp.drop n).take count) g ++ buf.drop count else buf

/-- Closed form of `process_chunk` when its accesses stay in bounds and the scratch
buffer is `buf` (proved equal in `process_chunk_ok`). -/
def chunk_closed (c : channel_t) (inp buf : List ℚ) (samples : Nat) (s : LoopState) : LoopState :=
  let count := lsp_min (samples - s.n) BUFFER_SIZE
  let src := (inp.drop s.n).take samples
  let line := s.sLine.process_ramping src c.fWetGain (to_size_t c.nDelay)
  let buf2 := mixed c.fDryGain (line.2 ++ buf.drop samples) inp s.n count
  let byp := s.sBypass.process ((inp.drop s.n).take count) (buf2.take count)
  { sLine := line.1, sBypass := byp.1, vBuffer := some buf2,
    out := s.out.take s.n ++ byp.2 ++ s.out.drop (s.n + count),
    in_gain := lsp_max s.in_gain (abs_max src),
    out_gain := lsp_max s.out_gain (abs_max (buf2.take samples)),
    n := s.n + count }

/-- Host after `set_value` through a valid pointer to port `k`. -/
def poke_value (h : Host) (k : Nat) (v : ℚ) : Host :=
  match h[k]? with
  | some p => h.set k { p with fValue := v }
  | none => h

/-- Host after samples were stored behind the buffer of port `k`. -/
def poke_buffer (h : Host) (k : Nat) (b : List ℚ) : Host :=
  match h[k]? with
  | some p => h.set k { p with pBuffer := some b }
  | none => h

/-- Variables of the chunk loop on entry (lines 256-264). -/
def loop_entry (c : channel_t) (vBuffer : Option (List ℚ)) (out : List ℚ) : LoopState :=
  { sLine := c.sLine, sBypass := c.sBypass, vBuffer := vBuffer, out := out,
    in_gain := 0, out_gain := 0, n := 0 }

/-- Closed form of `process_channel` for a block of at most `BUFFER_SIZE` samples on a
channel whose buffers `inp`, `out` are bound and whose output and meter pointers
designate the ports `o`, `a`, `b`, `d` (proved equal in `process_channel_ok`). -/
def channel_closed (sr : Int) (samples : Nat) (c : channel_t) (buf : List ℚ) (h : Host)
    (o a b d : Nat) (inp out : List ℚ) : ChannelResult :=
  let s := if 0 < samples then chunk_closed c inp buf samples (loop_entry c (some buf) out)
    else loop_entry c (some buf) out
  { c := { c with sLine := s.sLine, sBypass := s.sBypass }, vBuffer := s.vBuffer,
    host := poke_value (poke_value (poke_value (poke_buffer h o s.out) a s.in_gain)
      b s.out_gain) d (samples_to_millis sr c.nDelay) }

/-- Samples that the Delay Line returns in one chunk (the delayed wet signal): the
output of the `process_ramping` call of line 269. -/
def wet_chunk (c : channel_t) (inp : List ℚ) (samples : Nat) (s : LoopState) : List ℚ :=
  (s.sLine.process_ramping ((inp.drop s.n).take samples) c.fWetGain (to_size_t c.nDelay)).2

/-- Channel `ch_mono 48000` with the dry gain `g`. -/
def ch_dry (g : ℚ) : channel_t := { ch_mono 48000 with fDryGain := g }

/-- Variables of the chunk loop on entry for a channel with the scratch buffer of `init`
and an output block of one sample. -/
def entry_one (c : channel_t) : LoopState :=
  loop_entry c (some (List.replicate BUFFER_SIZE 0)) [0]

/-- Value read by `p->value()` when `p` designates a port of `h`. -/
def value_at (h : Host) (p : Option Nat) : ℚ :=
  match deref h p with
  | .ok port => port.fValue
  | .error _ => 0

/-- Pointer `p` designates a port of `h`. -/
def valid (h : Host) (p : Option Nat) : Prop := ∃ port, deref h p = .ok port

/-- Closed form of `update_channel` when the three control pointers of the channel are
valid (proved equal in `update_channel_ok`). -/
def settings_closed (h : Host) (out_gain : ℚ) (bypass : Bool) (c : channel_t) : channel_t :=
  { c with fDryGain := value_at h c.pDry * out_gain,
           fWetGain := value_at h c.pWet * out_gain,
           nDelay := trunc (value_at h c.pDelay),
           sLine := c.sLine.set_delay (to_size_t (trunc (value_at h c.pDelay))),
           sBypass := c.sBypass.set_bypass bypass }

/-- Channel `i` of the stereo instance after `init` on the ports `0 .. 13` and
`set_sample_rate sr`. -/
def ch_stereo (sr : Int) (i : Nat) : channel_t :=
  { sLine := Delay.init (10 * sr).toNat, sBypass := Bypass.construct.init sr,
    nDelay := 0, fDryGain := 0, fWetGain := 0,
    pIn := some i, pOut := some (2 + i), pDelay := some 5, pDry := some 6, pWet := some 7,
    pOutDelay := some 9, pInLevel := some (10 + 2 * i), pOutLevel := some (11 + 2 * i) }

/-- Stereo instance with the channels `c0`, `c1`, bound as `init` binds the ports
`0 .. 13`, at the sample rate `sr`. -/
def stereo_plugin (sr : Int) (c0 c1 : channel_t) : neural_amp_plugin :=
  { nChannels := 2, vChannels := some [c0, c1],
    vBuffer := some (List.replicate BUFFER_SIZE 0),
    pBypass := some 4, pGainOut := some 8, pData := some (), fSampleRate := sr }

/-- Stereo instance after `init` and `set_sample_rate 48000`. -/
def stereo_ready : neural_amp_plugin :=
  stereo_plugin 48000 (ch_stereo 48000 0) (ch_stereo 48000 1)

/-- Port values of a stereo host without audio buffers: bypass on, delay 480.75
samples, dry 1/2, wet 1, output gain 2. -/
def settings_host : Host := stereo_host none none none none 1 (1923 / 4) (1 / 2) 1 2 0

/-- Mono plugin as constructed; `init` with a failed allocation leaves it so. -/
def inert_mono : neural_amp_plugin :=
  neural_amp_plugin.construct neural_amp_plugin_mono_ports

/-- Ports of a mono host with bound blocks of 64 samples. -/
def idle_host : Host :=
  mono_host (some (List.replicate 64 0)) (some (List.replicate 64 0)) 0 0 0 1 1 0

/-- Channel `i` of an engine with `N` channels as `init` leaves it on the port array
`ports` (proved in `init_bind_mono` and `init_bind_stereo`). -/
def bound_channel (ports : List Nat) (N i : Nat) : channel_t :=
  { sLine := Delay.construct, sBypass := Bypass.construct, nDelay := 0, fDryGain := 0,
    fWetGain := 0, pIn := ports[i]?, pOut := ports[N + i]?,
    pDelay := ports[2 * N + 1]?, pDry := ports[2 * N + 2]?, pWet := ports[2 * N + 3]?,
    pOutDelay := ports[2 * N + 5]?, pInLevel := ports[2 * N + 6 + 2 * i]?,
    pOutLevel := ports[2 * N + 7 + 2 * i]? }

/-- Engine with `N` channels as `init` leaves it on the port array `ports`. -/
def bound_plugin (ports : List Nat) (N : Nat) (e : neural_amp_plugin) : neural_amp_plugin :=
  { e with vChannels := some ((List.range N).map (bound_channel ports N)),
           vBuffer := some (List.replicate BUFFER_SIZE 0),
           pBypass := ports[2 * N]?, pGainOut := ports[2 * N + 4]?, pData := some () }

/-- Buffer returned by `p->buffer<float>()`; `none` also when `p` designates no port. -/
def buffer_at (h : Host) (p : Option Nat) : Option (List ℚ) :=
  match deref h p with
  | .ok port => port.pBuffer
  | .error _ => none

/-- Test of line 253: the channel is skipped when one of its buffers is null. -/
def skipped (h : Host) (c : channel_t) : Bool :=
  (buffer_at h c.pIn).isNone || (buffer_at h c.pOut).isNone

/-- Host after the stores that follow the chunk loop (lines 286-297): the samples written
through `out` and the three meters. -/
def publish (sr : Int) (c : channel_t) (h : Host) (o a b d : Nat) (s : LoopState) : Host :=
  poke_value (poke_value (poke_value (poke_buffer h o s.out) a s.in_gain) b s.out_gain) d
    (samples_to_millis sr c.nDelay)

/-- Block of 4097 samples of amplitude `1/2`. -/
def peak_block : Option (List ℚ) := some (List.replicate 4097 (1 / 2))

/-- The call returned a state. -/
def returns {α : Type} : Except Fault α → Bool
  | .ok _ => true
  | .error _ => false

/-- Ports that the processing of a channel writes: the output buffer and the three
meters (lines 283, 292, 293, 297). -/
def written (c : channel_t) : List (Option Nat) :=
  [c.pOut, c.pInLevel, c.pOutLevel, c.pOutDelay]

/-- Port pointers of a channel that `process` uses. -/
def wiring (c : channel_t) : List (Option Nat) :=
  [c.pIn, c.pOut, c.pInLevel, c.pOutLevel, c.pOutDelay]

/-- Iterations `js` of the channel loop of `process`, in this order. -/
def steps (samples : Nat) (js : List Nat) (w : World) : Except Fault World :=
  js.foldlM (fun w j => process_step samples j w) w

/-- Ports of a stereo host whose left input is unbound, with one-sample blocks on the other
audio ports, the delay control at 480 samples and the output-delay meter at 0. -/
def left_unbound_host : Host :=
  stereo_host none (some [1]) (some [0]) (some [0]) 0 480 0 1 1 0

/-- Channel `i` of the stereo instance after `stereo_setup 48000 left_unbound_host`. -/
def ch_left_unbound (i : Nat) : channel_t :=
  settings_closed left_unbound_host 1 false (ch_stereo 48000 i)

/-- Stereo instance after `stereo_setup 48000 left_unbound_host`. -/
def left_unbound_world : World :=
  { plug := stereo_plugin 48000 (ch_left_unbound 0) (ch_left_unbound 1),
    host := left_unbound_host }

/-- Host side of a block processed in two calls: after a call on `a` samples the next
call receives every audio buffer advanced by `a` samples. -/
def next_block (a : Nat) (w : World) : World :=
  { w with host := w.host.map (fun p => { p with pBuffer := p.pBuffer.map (List.drop a) }) }

/-- Mono engine ready for a call: one channel with valid, distinct ports, a scratch buffer
of `BUFFER_SIZE` samples, an input buffer of `li` and an output buffer of `lo` samples. -/
def block_ready (li lo : Nat) (w : World) : Prop :=
  ∃ (c : channel_t) (buf inp out : List ℚ) (a b d : Nat),
    w.plug.nChannels = 1 ∧ w.plug.vChannels = some [c] ∧
    w.plug.vBuffer = some buf ∧ buf.length = BUFFER_SIZE ∧
    buffer_at w.host c.pIn = some inp ∧ buffer_at w.host c.pOut = some out ∧
    c.pInLevel = some a ∧ a < w.host.length ∧ c.pOutLevel = some b ∧ b < w.host.length ∧
    c.pOutDelay = some d ∧ d < w.host.length ∧ c.pIn ∉ written c ∧
    inp.length = li ∧ out.length = lo

/-- Mono instance after `mono_setup 48000` on a host with blocks of 4097 samples. -/
def long_world : World :=
  { plug := { nChannels := 1, vChannels := some [ch_mono 48000],
              vBuffer := some (List.replicate BUFFER_SIZE 0),
              pBypass := some 2, pGainOut := some 6, pData := some (), fSampleRate := 48000 },
    host := mono_host long_block long_block 0 0 0 1 1 0 }

theorem rd_ok {op : Op} {r : Region} {buf : List ℚ} {off count : Nat}
    (h : off + count ≤ buf.length) :
    rd op r buf off count = .ok ((buf.drop off).take count) := by
  simp [rd, h]

theorem take_drop_length {inp : List ℚ} {n count : Nat} (h : n + count ≤ inp.length) :
    ((inp.drop n).take count).length = count := by
  simp; omega

theorem wr_error {op : Op} {r : Region} {buf xs : List ℚ} {off : Nat}
    (h : ¬ off + xs.length ≤ buf.length) :
    wr op r buf off xs = .error (.overrun op r (off + xs.length) buf.length) := by
  simp [wr, h]

theorem wr_ok {op : Op} {r : Region} {buf xs : List ℚ} {off : Nat}
    (h : off + xs.length ≤ buf.length) :
    wr op r buf off xs = .ok (buf.take off ++ xs ++ buf.drop (off + xs.length)) := by
  simp [wr, h]

theorem ramp_loop_length (scale : ℚ) (a b count : Nat) (xs : List ℚ) :
    ∀ (i : Nat) (d : Delay), (Delay.ramp_loop scale a b count i xs d).2.length = xs.length := by
  induction xs with
  | nil => intro i d; simp [Delay.ramp_loop]
  | cons x xs ih => intro i d; simp [Delay.ramp_loop, ih]

theorem process_ramping_length (d : Delay) (src : List ℚ) (scale : ℚ) (delay : Nat) :
    (d.process_ramping src scale delay).2.length = src.length := by
  simp [Delay.process_ramping, ramp_loop_length]

/-! ### The chunk loop beyond the scratch buffer -/

theorem process_chunk_overrun (c : channel_t) (inp buf : List ℚ) (samples : Nat) (s : LoopState)
    (hb : s.vBuffer = some buf) (hlen : buf.length = BUFFER_SIZE) (hs : BUFFER_SIZE < samples)
    (hin : s.n + samples ≤ inp.length) :
    process_chunk c inp samples s
      = .error (.overrun .process_ramping .vBuffer samples BUFFER_SIZE) := by
  have hw : ¬ 0 + (s.sLine.process_ramping ((inp.drop s.n).take samples) c.fWetGain
      (to_size_t c.nDelay)).2.length ≤ buf.length := by
    rw [process_ramping_length, take_drop_length hin, hlen]; omega
  unfold process_chunk
  simp only [hb, nonnull, rd_ok hin, bind, Except.bind, wr_error hw, process_ramping_length,
    take_drop_length hin, hlen, Nat.zero_add]

theorem process_channel_overrun (sr : Int) (samples : Nat) (c : channel_t) (buf : List ℚ)
    (h : Host) (pin pout : IPort) (inp out : List ℚ)
    (hpin : deref h c.pIn = .ok pin) (hpout : deref h c.pOut = .ok pout)
    (hinp : pin.pBuffer = some inp) (hout : pout.pBuffer = some out)
    (hlen : buf.length = BUFFER_SIZE) (hs : BUFFER_SIZE < samples) (hin : samples ≤ inp.length) :
    process_channel sr samples c (some buf) h
      = .error (.overrun .process_ramping .vBuffer samples BUFFER_SIZE) := by
  have hpos : 0 < samples := by omega
  obtain ⟨fuel, rfl⟩ : ∃ fuel, samples = fuel + 1 := ⟨samples - 1, by omega⟩
  unfold process_channel
  simp only [hpin, hpout, hinp, hout, bind, Except.bind, process_loop, hpos, if_true]
  rw [process_chunk_overrun c inp buf (fuel + 1) _ rfl hlen hs (by simpa using hin)]

/-! ### Unrolling of the channel loop -/

theorem for_each_zero {σ : Type} (body : Nat → σ → Except Fault σ) (s : σ) :
    for_each 0 body s = .ok s := rfl

theorem for_each_one {σ : Type} (body : Nat → σ → Except Fault σ) (s : σ) :
    for_each 1 body s = body 0 s := by
  show (do let s1 ← body 0 s; pure s1) = body 0 s
  cases body 0 s <;> rfl

theorem mono_setup_eq (inp out : Option (List ℚ)) :
    mono_setup 48000 (mono_host inp out 0 0 0 1 1 0) = .ok
      { plug := { nChannels := 1, vChannels := some [ch_mono 48000],
                  vBuffer := some (List.replicate BUFFER_SIZE 0),
                  pBypass := some 2, pGainOut := some 6, pData := some (), fSampleRate := 48000 },
        host := mono_host inp out 0 0 0 1 1 0 } := by
  with_unfolding_all rfl

theorem mono_long_block_overrun :
    process_channel 48000 4097 (ch_mono 48000) (some (List.replicate BUFFER_SIZE 0))
        (mono_host long_block long_block 0 0 0 1 1 0)
      = .error (.overrun .process_ramping .vBuffer 4097 BUFFER_SIZE) :=
  process_channel_overrun 48000 4097 (ch_mono 48000) (List.replicate BUFFER_SIZE 0)
    (mono_host long_block long_block 0 0 0 1 1 0)
    (audio long_block) (audio long_block)
    (List.replicate 4097 0) (List.replicate 4097 0) rfl rfl rfl rfl
    (List.length_replicate _ _) (by decide) (by rw [List.length_replicate])

/-! ### C1 -/

/-- C1 (fails on the code): on a mono instance at 48 kHz, a `process(4097)` call on
blocks of 4097 samples leaves defined behaviour in its first chunk, where `count` is
4096: `process_ramping` is called with `samples` and writes 4097 elements into the
scratch buffer of `BUFFER_SIZE` elements. -/
theorem C1_process_ramping_overruns_scratch :
    (do let w ← mono_setup 48000 (mono_host long_block long_block 0 0 0 1 1 0)
        process 4097 w)
      = .error (.overrun .process_ramping .vBuffer 4097 BUFFER_SIZE) := by
  rw [mono_setup_eq]
  simp only [bind, Except.bind, process, for_each_one, process_step, nonnull, index,
    List.getElem?_cons_zero, mono_long_block_overrun]

/-! ### A block that fits the scratch buffer -/

theorem lsp_min_le_left (a b : Nat) : lsp_min a b ≤ a := by
  unfold lsp_min; split <;> omega

theorem fmadd_k3_length (dst src : List ℚ) (k : ℚ) :
    (fmadd_k3 dst src k).length = min dst.length src.length := by
  simp [fmadd_k3]

theorem bypass_process_length (dry wet : List ℚ) :
    ∀ b : Bypass, (b.process dry wet).2.length = min dry.length wet.length := by
  induction dry generalizing wet with
  | nil => intro b; cases wet <;> simp [Bypass.process]
  | cons d ds ih =>
    intro b
    cases wet with
    | nil => simp [Bypass.process]
    | cons w ws => simp [Bypass.process, ih, Nat.add_min_add_right]

theorem mixed_length (g : ℚ) (buf inp : List ℚ) (n count : Nat)
    (hin : n + count ≤ inp.length) (hb : count ≤ buf.length) :
    (mixed g buf inp n count).length = buf.length := by
  unfold mixed
  split
  · simp [fmadd_k3_length]; omega
  · rfl

theorem dry_mix_ok (g : ℚ) (buf inp : List ℚ) (n count : Nat)
    (hin : n + count ≤ inp.length) (hb : count ≤ buf.length) :
    dry_mix g buf inp n count = .ok (mixed g buf inp n count) := by
  unfold dry_mix mixed
  split
  · have h0 : 0 + count ≤ buf.length := by omega
    have hl : (fmadd_k3 (List.take count (List.drop 0 buf)) (List.take count (List.drop n inp)) g).length = count := by
      rw [fmadd_k3_length, take_drop_length h0, take_drop_length hin]; simp
    have hw : 0 + (fmadd_k3 (List.take count (List.drop 0 buf)) (List.take count (List.drop n inp)) g).length ≤ buf.length := by
      rw [hl]; omega
    simp only [rd_ok hin, rd_ok h0, bind, Except.bind, wr_ok hw, hl]
    simp
  · rfl

theorem process_chunk_ok (c : channel_t) (inp buf : List ℚ) (samples : Nat) (s : LoopState)
    (hb : s.vBuffer = some buf) (hs : samples ≤ buf.length)
    (hin : s.n + samples ≤ inp.length)
    (hout : s.n + lsp_min (samples - s.n) BUFFER_SIZE ≤ s.out.length) :
    process_chunk c inp samples s = .ok (chunk_closed c inp buf samples s) := by
  unfold chunk_closed
  simp only []
  generalize hcount : lsp_min (samples - s.n) BUFFER_SIZE = count at *
  have hcs : count ≤ samples := by
    have := lsp_min_le_left (samples - s.n) BUFFER_SIZE
    omega
  generalize hline : s.sLine.process_ramping ((inp.drop s.n).take samples) c.fWetGain
    (to_size_t c.nDelay) = line
  have hll : line.2.length = samples := by
    rw [← hline, process_ramping_length, take_drop_length hin]
  have hw1 : 0 + line.2.length ≤ buf.length := by omega
  have hb1 : (line.2 ++ buf.drop samples).length = buf.length := by
    simp [hll]; omega
  have hinc : s.n + count ≤ inp.length := by omega
  have hcb : count ≤ (line.2 ++ buf.drop samples).length := by omega
  have hm := mixed_length c.fDryGain (line.2 ++ buf.drop samples) inp s.n count hinc hcb
  generalize hbuf2 : mixed c.fDryGain (line.2 ++ buf.drop samples) inp s.n count = buf2 at *
  have hr1 : 0 + samples ≤ buf2.length := by omega
  have hr2 : 0 + count ≤ buf2.length := by omega
  have hbl : (s.sBypass.process ((inp.drop s.n).take count) (buf2.take count)).2.length = count := by
    rw [bypass_process_length, take_drop_length hinc]
    simp; omega
  have hw2 : s.n + (s.sBypass.process ((inp.drop s.n).take count)
      (((buf2.drop 0).take count))).2.length ≤ s.out.length := by
    rw [List.drop_zero, hbl]; exact hout
  unfold process_chunk
  simp only [hb, nonnull, bind, Except.bind, rd_ok hin, hcount, hline, wr_ok hw1, hll,
    List.take_zero, List.nil_append, Nat.zero_add, dry_mix_ok _ _ _ _ _ hinc hcb, hbuf2,
    rd_ok hr1, rd_ok hinc, rd_ok hr2, wr_ok hw2]
  simp only [List.drop_zero, hbl, pure, Except.pure, List.append_assoc]

theorem process_loop_done (c : channel_t) (inp : List ℚ) (samples fuel : Nat) (s : LoopState)
    (h : samples ≤ s.n) : process_loop c inp samples fuel s = .ok s := by
  have h1 : ¬ s.n < samples := by omega
  cases fuel <;> simp [process_loop, h1]

theorem lsp_min_small {a : Nat} (h : a ≤ BUFFER_SIZE) : lsp_min a BUFFER_SIZE = a := by
  unfold lsp_min; split <;> omega

theorem process_loop_single (c : channel_t) (inp buf : List ℚ) (samples : Nat) (s : LoopState)
    (hn : s.n = 0) (hb : s.vBuffer = some buf) (hlen : buf.length = BUFFER_SIZE)
    (hs : samples ≤ BUFFER_SIZE) (hpos : 0 < samples)
    (hin : samples ≤ inp.length) (hout : samples ≤ s.out.length) :
    process_loop c inp samples samples s = .ok (chunk_closed c inp buf samples s) := by
  obtain ⟨fuel, rfl⟩ : ∃ fuel, samples = fuel + 1 := ⟨samples - 1, by omega⟩
  have hc : lsp_min (fuel + 1 - s.n) BUFFER_SIZE = fuel + 1 := by
    rw [hn]; exact lsp_min_small hs
  have h1 := process_chunk_ok c inp buf (fuel + 1) s hb (by omega) (by omega) (by omega)
  have hlt : s.n < fuel + 1 := by omega
  simp only [process_loop, hlt, if_true, h1, bind, Except.bind]
  apply process_loop_done
  simp only [chunk_closed, hc]; omega

theorem set_value_ok (h : Host) (k : Nat) (v : ℚ) (hk : k < h.length) :
    set_value h (some k) v = .ok (poke_value h k v) := by
  simp [set_value, poke_value, nonnull, index, bind, Except.bind, List.getElem?_eq_getElem hk, pure, Except.pure]

theorem set_buffer_ok (h : Host) (k : Nat) (b : List ℚ) (hk : k < h.length) :
    set_buffer h (some k) b = .ok (poke_buffer h k b) := by
  simp [set_buffer, poke_buffer, nonnull, index, bind, Except.bind, List.getElem?_eq_getElem hk, pure, Except.pure]

theorem poke_value_length (h : Host) (k : Nat) (v : ℚ) : (poke_value h k v).length = h.length := by
  unfold poke_value; split <;> simp

theorem poke_buffer_length (h : Host) (k : Nat) (b : List ℚ) :
    (poke_buffer h k b).length = h.length := by
  unfold poke_buffer; split <;> simp

theorem deref_some (h : Host) (k : Nat) (p : IPort) (hk : h[k]? = some p) :
    deref h (some k) = .ok p := by
  simp [deref, nonnull, index, bind, Except.bind, hk]

theorem process_channel_ok (sr : Int) (samples : Nat) (c : channel_t) (buf : List ℚ) (h : Host)
    (i o a b d : Nat) (pin pout : IPort) (inp out : List ℚ)
    (hi : c.pIn = some i) (hpin : h[i]? = some pin) (hinp : pin.pBuffer = some inp)
    (ho : c.pOut = some o) (hpout : h[o]? = some pout) (hout : pout.pBuffer = some out)
    (ha : c.pInLevel = some a) (hal : a < h.length)
    (hb : c.pOutLevel = some b) (hbl : b < h.length)
    (hd : c.pOutDelay = some d) (hdl : d < h.length)
    (hlen : buf.length = BUFFER_SIZE) (hs : samples ≤ BUFFER_SIZE)
    (hsi : samples ≤ inp.length) (hso : samples ≤ out.length) :
    process_channel sr samples c (some buf) h
      = .ok (channel_closed sr samples c buf h o a b d inp out) := by
  have hol : o < h.length := by
    rcases Nat.lt_or_ge o h.length with h1 | h1
    · exact h1
    · rw [List.getElem?_eq_none h1] at hpout; cases hpout
  have hloop : process_loop c inp samples samples (loop_entry c (some buf) out)
      = .ok (if 0 < samples then chunk_closed c inp buf samples (loop_entry c (some buf) out)
          else loop_entry c (some buf) out) := by
    by_cases hpos : 0 < samples
    · rw [if_pos hpos]
      exact process_loop_single c inp buf samples _ rfl rfl hlen hs hpos hsi hso
    · rw [if_neg hpos]
      exact process_loop_done c inp samples samples _ (by simp [loop_entry]; omega)
  unfold process_channel channel_closed
  rw [hi, ho, deref_some h i pin hpin, deref_some h o pout hpout]
  simp only [bind, Except.bind, hinp, hout]
  have hloop2 := hloop
  unfold loop_entry at hloop2
  rw [hloop2]
  simp only [ha, hb, hd]
  rw [set_buffer_ok _ _ _ hol]
  simp only []
  rw [set_value_ok _ _ _ (by rw [poke_buffer_length]; exact hal)]
  simp only []
  rw [set_value_ok _ _ _ (by rw [poke_value_length, poke_buffer_length]; exact hbl)]
  simp only []
  rw [set_value_ok _ _ _ (by rw [poke_value_length, poke_value_length, poke_buffer_length]; exact hdl)]
  rfl

/-! ### C3 -/

theorem wet_chunk_length (c : channel_t) (inp : List ℚ) (samples : Nat) (s : LoopState)
    (hin : s.n + samples ≤ inp.length) : (wet_chunk c inp samples s).length = samples := by
  unfold wet_chunk
  rw [process_ramping_length, take_drop_length hin]

theorem mixed_getElem (g : ℚ) (buf inp : List ℚ) (n count k : Nat)
    (hin : n + count ≤ inp.length) (hb : count ≤ buf.length) (hk : k < count) :
    (mixed g buf inp n count)[k]?
      = some (if g > 0 then buf.getD k 0 + g * inp.getD (n + k) 0 else buf.getD k 0) := by
  have hkb : k < buf.length := by omega
  have hki : n + k < inp.length := by omega
  unfold mixed
  split
  · have hlen : k < (fmadd_k3 (buf.take count) ((inp.drop n).take count) g).length := by
      rw [fmadd_k3_length]
      have := take_drop_length hin
      simp at this ⊢
      omega
    rw [List.getElem?_append_left hlen]
    simp [fmadd_k3, List.getElem?_zipWith, List.getElem?_take, hk, List.getElem?_drop,
      List.getElem?_eq_getElem hkb, List.getElem?_eq_getElem hki, List.getD_eq_getElem?_getD,
      mul_comm]
  · simp [List.getD_eq_getElem?_getD, List.getElem?_eq_getElem hkb]

/-- C3 (amended): when the accesses of a chunk stay in bounds, after the dry-mix step
the scratch buffer holds, for each sample `k` of the chunk, `delayed_wet[k] +
dry_gain * input[k]` if the dry gain is strictly positive, and `delayed_wet[k]` alone if
the dry gain is zero or negative: the addition is skipped unless `fDryGain > 0`. -/
theorem C3_dry_mix_applied_iff_gain_positive (c : channel_t) (inp buf : List ℚ) (samples : Nat)
    (s : LoopState) (hb : s.vBuffer = some buf) (hs : samples ≤ buf.length)
    (hin : s.n + samples ≤ inp.length)
    (hout : s.n + lsp_min (samples - s.n) BUFFER_SIZE ≤ s.out.length) :
    ∃ s1 buf1, process_chunk c inp samples s = .ok s1 ∧ s1.vBuffer = some buf1 ∧
      ∀ k, k < lsp_min (samples - s.n) BUFFER_SIZE →
        ∃ w x, (wet_chunk c inp samples s)[k]? = some w ∧ inp[s.n + k]? = some x ∧
          buf1[k]? = some (if c.fDryGain > 0 then w + c.fDryGain * x else w) := by
  refine ⟨_, _, process_chunk_ok c inp buf samples s hb hs hin hout, rfl, ?_⟩
  intro k hk
  have hcs : lsp_min (samples - s.n) BUFFER_SIZE ≤ samples := by
    have := lsp_min_le_left (samples - s.n) BUFFER_SIZE
    omega
  have hwl := wet_chunk_length c inp samples s hin
  have hkw : k < (wet_chunk c inp samples s).length := by omega
  have hki : s.n + k < inp.length := by omega
  refine ⟨(wet_chunk c inp samples s)[k], inp[s.n + k], List.getElem?_eq_getElem hkw,
    List.getElem?_eq_getElem hki, ?_⟩
  have hl : (wet_chunk c inp samples s ++ buf.drop samples).length = buf.length := by
    simp [hwl]; omega
  have := mixed_getElem c.fDryGain (wet_chunk c inp samples s ++ buf.drop samples) inp s.n
    (lsp_min (samples - s.n) BUFFER_SIZE) k (by omega) (by omega) hk
  show (mixed c.fDryGain (wet_chunk c inp samples s ++ buf.drop samples) inp s.n _)[k]? = _
  rw [this]
  simp [List.getD_eq_getElem?_getD, List.getElem?_append_left hkw, List.getElem?_eq_getElem hkw,
    List.getElem?_eq_getElem hki]

/-- C3 (counterexample): with the dry control at `-1` and the output gain at `1` the
channel has the nonzero dry gain `-1`; on the one-sample block `[1/2]` the delayed wet
sample is `1/2`, and after the chunk the scratch buffer still holds `1/2`, not
`1/2 + (-1) * (1/2) = 0`: the code tests `fDryGain > 0`, so a negative gain skips the
addition. -/
theorem C3_negative_dry_gain_is_skipped :
    (mono_setup 48000 (mono_host (some [1/2]) (some [0]) 0 0 (-1) 1 1 0)).map
        (fun w => w.plug.vChannels) = .ok (some [ch_dry (-1)]) ∧
    (ch_dry (-1)).fDryGain ≠ 0 ∧
    (wet_chunk (ch_dry (-1)) [1/2] 1 (entry_one (ch_dry (-1))))[0]? = some (1/2) ∧
    (process_chunk (ch_dry (-1)) [1/2] 1 (entry_one (ch_dry (-1)))).map
        (fun s => s.vBuffer.bind (fun b => b[0]?)) = .ok (some (1/2)) ∧
    (1/2 : ℚ) ≠ 1/2 + (ch_dry (-1)).fDryGain * (1/2) := by
  decide!

/-- C3 (witness): the amended statement applied to the one-sample block `[1/2]` on a
channel with dry gain `2`. -/
theorem C3_dry_mix_witness :
    (entry_one (ch_dry 2)).vBuffer = some (List.replicate BUFFER_SIZE 0) ∧
    1 ≤ (List.replicate BUFFER_SIZE (0 : ℚ)).length ∧
    (entry_one (ch_dry 2)).n + 1 ≤ ([1/2] : List ℚ).length ∧
    (entry_one (ch_dry 2)).n + lsp_min (1 - (entry_one (ch_dry 2)).n) BUFFER_SIZE
      ≤ (entry_one (ch_dry 2)).out.length ∧
    ∃ s1 buf1, process_chunk (ch_dry 2) [1/2] 1 (entry_one (ch_dry 2)) = .ok s1 ∧
      s1.vBuffer = some buf1 ∧
      ∀ k, k < lsp_min (1 - (entry_one (ch_dry 2)).n) BUFFER_SIZE →
        ∃ w x, (wet_chunk (ch_dry 2) [1/2] 1 (entry_one (ch_dry 2)))[k]? = some w ∧
          ([1/2] : List ℚ)[(entry_one (ch_dry 2)).n + k]? = some x ∧
          buf1[k]? = some (if (ch_dry 2).fDryGain > 0 then w + (ch_dry 2).fDryGain * x else w) :=
  have h1 : 1 ≤ (List.replicate BUFFER_SIZE (0 : ℚ)).length := by
    rw [List.length_replicate]; decide
  ⟨rfl, h1, by decide, by decide,
    C3_dry_mix_applied_iff_gain_positive (ch_dry 2) [1/2] (List.replicate BUFFER_SIZE 0) 1
      (entry_one (ch_dry 2)) rfl h1 (by decide) (by decide)⟩

/-! ### Loops over the channel array -/

theorem for_each_succ {σ : Type} (n : Nat) (body : Nat → σ → Except Fault σ) (s : σ) :
    for_each (n + 1) body s = (do let s1 ← for_each n body s; body n s1) := by
  unfold for_each
  rw [List.range_succ, List.foldlM_append]
  cases List.foldlM (fun s i => body i s) s (List.range n) with
  | error e => rfl
  | ok s1 =>
    show (do let s2 ← body n s1; pure s2) = body n s1
    cases body n s1 <;> rfl

theorem set_map_take (g : channel_t → channel_t) :
    ∀ (chs : List channel_t) (n : Nat) (hn : n < chs.length),
      ((chs.take n).map g ++ chs.drop n).set n (g chs[n])
        = (chs.take (n + 1)).map g ++ chs.drop (n + 1) := by
  intro chs
  induction chs with
  | nil => intro n hn; simp at hn
  | cons c cs ih =>
    intro n hn
    cases n with
    | zero => simp
    | succ m =>
      have := ih m (by simpa using hn)
      simp only [List.take_succ_cons, List.map_cons, List.cons_append, List.drop_succ_cons,
        List.set_cons_succ, List.getElem_cons_succ, this]

theorem getElem?_map_take (g : channel_t → channel_t) :
    ∀ (chs : List channel_t) (n : Nat) (hn : n < chs.length),
      ((chs.take n).map g ++ chs.drop n)[n]? = some chs[n] := by
  intro chs
  induction chs with
  | nil => intro n hn; simp at hn
  | cons c cs ih =>
    intro n hn
    cases n with
    | zero => simp
    | succ m =>
      have := ih m (by simpa using hn)
      simp only [List.take_succ_cons, List.map_cons, List.cons_append, List.drop_succ_cons,
        List.getElem?_cons_succ, List.getElem_cons_succ, this]

theorem for_each_map (f : channel_t → Except Fault channel_t) (g : channel_t → channel_t)
    (chs : List channel_t) (hf : ∀ c ∈ chs, f c = .ok (g c)) :
    ∀ n, n ≤ chs.length →
      for_each n (fun i v => with_channel v i f) (some chs)
        = .ok (some ((chs.take n).map g ++ chs.drop n)) := by
  intro n
  induction n with
  | zero => intro _; simp [for_each_zero]
  | succ n ih =>
    intro hn
    have hlt : n < chs.length := by omega
    rw [for_each_succ, ih (by omega)]
    simp only [bind, Except.bind, with_channel, nonnull, index, getElem?_map_take g chs n hlt,
      hf _ (List.getElem_mem hlt), pure, Except.pure, set_map_take g chs n hlt]

theorem for_each_map_all (f : channel_t → Except Fault channel_t) (g : channel_t → channel_t)
    (chs : List channel_t) (hf : ∀ c ∈ chs, f c = .ok (g c)) :
    for_each chs.length (fun i v => with_channel v i f) (some chs) = .ok (some (chs.map g)) := by
  rw [for_each_map f g chs hf chs.length (le_refl _)]
  simp

/-! ### C4 -/

theorem value_at_ok {h : Host} {p : Option Nat} {port : IPort} (hp : deref h p = .ok port) :
    value_at h p = port.fValue := by
  simp [value_at, hp]

theorem update_channel_ok (h : Host) (out_gain : ℚ) (bypass : Bool) (c : channel_t)
    (hdry : valid h c.pDry) (hwet : valid h c.pWet) (hdly : valid h c.pDelay) :
    update_channel h out_gain bypass c = .ok (settings_closed h out_gain bypass c) := by
  obtain ⟨dry, hdry⟩ := hdry
  obtain ⟨wet, hwet⟩ := hwet
  obtain ⟨dly, hdly⟩ := hdly
  simp only [update_channel, settings_closed, hdry, hwet, hdly, bind, Except.bind, pure,
    Except.pure, value_at_ok hdry, value_at_ok hwet, value_at_ok hdly]

theorem update_settings_ok (h : Host) (e : neural_amp_plugin) (chs : List channel_t)
    (hv : e.vChannels = some chs) (hn : e.nChannels = chs.length)
    (hg : valid h e.pGainOut) (hb : valid h e.pBypass)
    (hc : ∀ c ∈ chs, valid h c.pDry ∧ valid h c.pWet ∧ valid h c.pDelay) :
    update_settings h e = .ok { e with vChannels := some (chs.map
      (settings_closed h (value_at h e.pGainOut) (decide (value_at h e.pBypass ≥ 1 / 2)))) } := by
  obtain ⟨g, hg⟩ := hg
  obtain ⟨b, hb⟩ := hb
  have hloop := for_each_map_all
    (update_channel h (value_at h e.pGainOut) (decide (value_at h e.pBypass ≥ 1 / 2)))
    (settings_closed h (value_at h e.pGainOut) (decide (value_at h e.pBypass ≥ 1 / 2))) chs
    (fun c hmem => update_channel_ok h _ _ c (hc c hmem).1 (hc c hmem).2.1 (hc c hmem).2.2)
  rw [value_at_ok hg, value_at_ok hb] at hloop ⊢
  simp only [update_settings, hg, hb, bind, Except.bind, hv, hn, hloop, pure, Except.pure]

theorem stereo_ready_eq :
    (do let e ← init true (List.range 14)
          (neural_amp_plugin.construct neural_amp_plugin_stereo_ports)
        set_sample_rate 48000 e) = .ok stereo_ready := by
  decide!

theorem for_each_error {σ : Type} (n : Nat) (body : Nat → σ → Except Fault σ) (s : σ)
    (f : Fault) (hn : 0 < n) (h0 : body 0 s = .error f) : for_each n body s = .error f := by
  obtain ⟨m, rfl⟩ : ∃ m, n = m + 1 := ⟨n - 1, by omega⟩
  unfold for_each
  rw [List.range_succ_eq_map, List.foldlM_cons, h0]
  rfl

/-- C6 (counterexample): on a mono plugin whose `init` met a failed allocation (the
plugin is left as constructed), `update_settings`, `update_sample_rate` and `process`
are not no-ops: each dereferences a null pointer. -/
theorem C6_lifecycle_calls_dereference_null :
    init false (List.range 10) inert_mono = .ok inert_mono ∧
    update_settings idle_host inert_mono = .error .null_deref ∧
    update_sample_rate 48000 inert_mono = .error .null_deref ∧
    process 64 { plug := inert_mono, host := idle_host } = .error .null_deref := by
  decide!

/-- C6 (amended): if the aligned allocation in `init` fails, `init` returns at once and
leaves the plugin unchanged, and on a plugin whose `vChannels`, `vBuffer`, `pBypass`,
`pGainOut` and `pData` are null `destroy` is a no-op guarded by its null checks; the
other lifecycle calls carry no null check: `update_settings` dereferences the null
`pGainOut`, and `update_sample_rate` and `process` dereference the null `vChannels`
unless the plugin has no channel. -/
theorem C6_only_destroy_is_guarded (e : neural_amp_plugin) (ports : List Nat) (h : Host)
    (sr : Int) (samples : Nat)
    (hv : e.vChannels = none) (hb : e.vBuffer = none) (hy : e.pBypass = none)
    (hg : e.pGainOut = none) (hd : e.pData = none) :
    init false ports e = .ok e ∧
    destroy e = .ok e ∧
    update_settings h e = .error .null_deref ∧
    update_sample_rate sr e = (if e.nChannels = 0 then .ok e else .error .null_deref) ∧
    process samples { plug := e, host := h }
      = (if e.nChannels = 0 then .ok { plug := e, host := h } else .error .null_deref) := by
  obtain ⟨n, v, b, y, g, d, r⟩ := e
  simp only at hv hb hy hg hd
  subst hv hb hy hg hd
  refine ⟨rfl, rfl, rfl, ?_, ?_⟩
  · by_cases hn : n = 0
    · subst hn; rfl
    · simp only [hn, if_false, update_sample_rate]
      rw [for_each_error n _ _ .null_deref (by omega) rfl]
      rfl
  · by_cases hn : n = 0
    · subst hn; rfl
    · simp only [hn, if_false, process]
      rw [for_each_error n _ _ .null_deref (by omega) rfl]

/-- C6 (witness): the amended statement applied to the mono plugin as constructed. -/
theorem C6_only_destroy_is_guarded_witness :
    inert_mono.vChannels = none ∧ inert_mono.vBuffer = none ∧ inert_mono.pBypass = none ∧
    inert_mono.pGainOut = none ∧ inert_mono.pData = none ∧
    (init false (List.range 10) inert_mono = .ok inert_mono ∧
     destroy inert_mono = .ok inert_mono ∧
     update_settings idle_host inert_mono = .error .null_deref ∧
     update_sample_rate 48000 inert_mono
       = (if inert_mono.nChannels = 0 then .ok inert_mono else .error .null_deref) ∧
     process 64 { plug := inert_mono, host := idle_host }
       = (if inert_mono.nChannels = 0 then .ok { plug := inert_mono, host := idle_host }
          else .error .null_deref)) :=
  ⟨rfl, rfl, rfl, rfl, rfl,
    C6_only_destroy_is_guarded inert_mono (List.range 10) idle_host 48000 64
      rfl rfl rfl rfl rfl⟩

/-! ### C7 -/

theorem list_length_ten {α : Type} (l : List α) (h : l.length = 10) :
    ∃ a0 a1 a2 a3 a4 a5 a6 a7 a8 a9, l = [a0, a1, a2, a3, a4, a5, a6, a7, a8, a9] := by
  match l, h with
  | [a0, a1, a2, a3, a4, a5, a6, a7, a8, a9], _ => exact ⟨_, _, _, _, _, _, _, _, _, _, rfl⟩

theorem list_length_fourteen {α : Type} (l : List α) (h : l.length = 14) :
    ∃ a0 a1 a2 a3 a4 a5 a6 a7 a8 a9 a10 a11 a12 a13,
      l = [a0, a1, a2, a3, a4, a5, a6, a7, a8, a9, a10, a11, a12, a13] := by
  match l, h with
  | [a0, a1, a2, a3, a4, a5, a6, a7, a8, a9, a10, a11, a12, a13], _ =>
    exact ⟨_, _, _, _, _, _, _, _, _, _, _, _, _, _, rfl⟩

theorem init_bind_mono (a0 a1 a2 a3 a4 a5 a6 a7 a8 a9 : Nat) (e : neural_amp_plugin)
    (he : e.nChannels = 1) :
    init_bind [a0, a1, a2, a3, a4, a5, a6, a7, a8, a9] e
      = .ok (bound_plugin [a0, a1, a2, a3, a4, a5, a6, a7, a8, a9] 1 e, 10) := by
  obtain ⟨n, v, b, y, g, d, r⟩ := e
  simp only at he
  subst he
  rfl

theorem init_bind_stereo (a0 a1 a2 a3 a4 a5 a6 a7 a8 a9 a10 a11 a12 a13 : Nat)
    (e : neural_amp_plugin) (he : e.nChannels = 2) :
    init_bind [a0, a1, a2, a3, a4, a5, a6, a7, a8, a9, a10, a11, a12, a13] e
      = .ok (bound_plugin [a0, a1, a2, a3, a4, a5, a6, a7, a8, a9, a10, a11, a12, a13] 2 e,
          14) := by
  obtain ⟨n, v, b, y, g, d, r⟩ := e
  simp only at he
  subst he
  rfl

theorem init_bind_ok (N : Nat) (hN : N = 1 ∨ N = 2) (ports : List Nat)
    (hp : ports.length = 4 * N + 6) (e : neural_amp_plugin) (he : e.nChannels = N) :
    init_bind ports e = .ok (bound_plugin ports N e, 4 * N + 6) := by
  rcases hN with rfl | rfl
  · obtain ⟨a0, a1, a2, a3, a4, a5, a6, a7, a8, a9, rfl⟩ := list_length_ten ports hp
    exact init_bind_mono _ _ _ _ _ _ _ _ _ _ e he
  · obtain ⟨a0, a1, a2, a3, a4, a5, a6, a7, a8, a9, a10, a11, a12, a13, rfl⟩ :=
      list_length_fourteen ports hp
    exact init_bind_stereo _ _ _ _ _ _ _ _ _ _ _ _ _ _ e he

/-- C7: for an engine with `N` channels, `N = 1` or `N = 2`, and a port array of `4N + 6`
entries, `init` succeeds, consumes exactly `4N + 6` ports and binds by position:
channel `i` input = `ports[i]`, output = `ports[N+i]`, bypass = `ports[2N]`, the delay,
dry and wet controls of every channel = `ports[2N+1]`, `ports[2N+2]`, `ports[2N+3]`,
output gain = `ports[2N+4]`, the output-delay meter of every channel = `ports[2N+5]`,
the level meters of channel `i` = `ports[2N+6+2i]`, `ports[2N+7+2i]`.  The mono and
stereo tables declare 1 and 2 audio inputs and `4N + 6` = 10 and 14 ports. -/
theorem C7_init_binds_by_position (N : Nat) (hN : N = 1 ∨ N = 2) (ports : List Nat)
    (hp : ports.length = 4 * N + 6) (e : neural_amp_plugin) (he : e.nChannels = N) :
    (∃ (e1 : neural_amp_plugin) (chs : List channel_t),
      init_bind ports e = .ok (e1, 4 * N + 6) ∧ init true ports e = .ok e1 ∧
      e1.vChannels = some chs ∧ chs.length = N ∧
      e1.pBypass = ports[2 * N]? ∧ e1.pGainOut = ports[2 * N + 4]? ∧
      ∀ (i : Nat) (c : channel_t), chs[i]? = some c →
        c.pIn = ports[i]? ∧ c.pOut = ports[N + i]? ∧
        c.pDelay = ports[2 * N + 1]? ∧ c.pDry = ports[2 * N + 2]? ∧
        c.pWet = ports[2 * N + 3]? ∧ c.pOutDelay = ports[2 * N + 5]? ∧
        c.pInLevel = ports[2 * N + 6 + 2 * i]? ∧ c.pOutLevel = ports[2 * N + 7 + 2 * i]?) ∧
    (neural_amp_plugin.construct neural_amp_plugin_mono_ports).nChannels = 1 ∧
    neural_amp_plugin_mono_ports.length = 4 * 1 + 6 ∧
    (neural_amp_plugin.construct neural_amp_plugin_stereo_ports).nChannels = 2 ∧
    neural_amp_plugin_stereo_ports.length = 4 * 2 + 6 := by
  refine ⟨⟨bound_plugin ports N e, (List.range N).map (bound_channel ports N),
    init_bind_ok N hN ports hp e he, ?_, rfl, by simp, rfl, rfl, ?_⟩,
    by decide, by decide, by decide, by decide⟩
  · simp only [init, if_true, init_bind_ok N hN ports hp e he, bind, Except.bind, pure,
      Except.pure]
  · intro i c hc
    rw [List.getElem?_map] at hc
    rcases hi : (List.range N)[i]? with _ | j
    · rw [hi] at hc; cases hc
    · rw [hi] at hc
      have hj : j = i := by
        have := List.getElem?_eq_some_iff.mp hi
        obtain ⟨h1, h2⟩ := this
        simpa using h2.symm
      subst hj
      cases hc
      exact ⟨rfl, rfl, rfl, rfl, rfl, rfl, rfl, rfl⟩

/-- C7 (witness): the statement applied to the stereo plugin as constructed and to the
port array `0 .. 13`. -/
theorem C7_init_binds_by_position_witness :
    (2 = 1 ∨ 2 = 2) ∧ (List.range 14).length = 4 * 2 + 6 ∧
    (neural_amp_plugin.construct neural_amp_plugin_stereo_ports).nChannels = 2 ∧
    ∃ (e1 : neural_amp_plugin) (chs : List channel_t),
      init_bind (List.range 14) (neural_amp_plugin.construct neural_amp_plugin_stereo_ports)
        = .ok (e1, 4 * 2 + 6) ∧
      init true (List.range 14) (neural_amp_plugin.construct neural_amp_plugin_stereo_ports)
        = .ok e1 ∧
      e1.vChannels = some chs ∧ chs.length = 2 ∧
      e1.pBypass = (List.range 14)[2 * 2]? ∧ e1.pGainOut = (List.range 14)[2 * 2 + 4]? ∧
      ∀ (i : Nat) (c : channel_t), chs[i]? = some c →
        c.pIn = (List.range 14)[i]? ∧ c.pOut = (List.range 14)[2 + i]? ∧
        c.pDelay = (List.range 14)[2 * 2 + 1]? ∧ c.pDry = (List.range 14)[2 * 2 + 2]? ∧
        c.pWet = (List.range 14)[2 * 2 + 3]? ∧ c.pOutDelay = (List.range 14)[2 * 2 + 5]? ∧
        c.pInLevel = (List.range 14)[2 * 2 + 6 + 2 * i]? ∧
        c.pOutLevel = (List.range 14)[2 * 2 + 7 + 2 * i]? :=
  ⟨Or.inr rfl, by decide, by decide,
    (C7_init_binds_by_position 2 (Or.inr rfl) (List.range 14) (by decide)
      (neural_amp_plugin.construct neural_amp_plugin_stereo_ports) (by decide)).1⟩

/-! ### C9 -/

theorem trunc_of_nonneg {q : ℚ} (hq : 0 ≤ q) : trunc q = ⌊q⌋ := by
  unfold trunc
  rw [Rat.floor_def, Int.tdiv_eq_ediv (Rat.num_nonneg.mpr hq) (by exact_mod_cast Nat.zero_le _)]

theorem trunc_bounds {q : ℚ} {m : Nat} (h0 : 0 ≤ q) (hm : q ≤ (m : ℚ)) :
    0 ≤ trunc q ∧ trunc q ≤ (m : Int) := by
  rw [trunc_of_nonneg h0]
  refine ⟨Int.floor_nonneg.mpr h0, ?_⟩
  have h1 : ((⌊q⌋ : Int) : ℚ) ≤ (m : ℚ) := le_trans (Int.floor_le q) hm
  exact_mod_cast h1

theorem update_sample_rate_ok (sr : Int) (e : neural_amp_plugin) (chs : List channel_t)
    (hv : e.vChannels = some chs) (hn : e.nChannels = chs.length) :
    update_sample_rate sr e = .ok { e with vChannels := some (chs.map (rate_channel sr)) } := by
  have hloop := for_each_map_all (fun c => Except.ok (rate_channel sr c)) (rate_channel sr) chs
    (fun _ _ => rfl)
  simp only [update_sample_rate, hv, hn, hloop, bind, Except.bind, pure, Except.pure]

/-- C9 (counterexample): at 48 kHz the capacity is 480000 samples; with the delay control
at 500000 the stored `nDelay` is 500000, above the capacity, and with the control at
`-1` it is `-1`, below zero: `update_settings` stores the truncated control value
without any clamp. -/
theorem C9_delay_length_is_not_clamped :
    max_delay_samples 48000 = 480000 ∧
    (mono_setup 48000 (mono_host none none 0 500000 0 1 1 0)).map
        (fun w => w.plug.vChannels.map (List.map (fun c => c.nDelay)))
      = .ok (some [500000]) ∧
    (mono_setup 48000 (mono_host none none 0 (-1) 0 1 1 0)).map
        (fun w => w.plug.vChannels.map (List.map (fun c => c.nDelay)))
      = .ok (some [-1]) := by
  decide!

/-- C9 (amended): after `update_sample_rate(sr)` and `update_settings`, each channel has
its Delay Line reserved for `max_delay_samples sr` samples (the sample count of
`DELAY_OUT_MAX_TIME` ms at rate `sr`) and stores as `nDelay` the delay control value
truncated to an integer, without clamping; `0 <= nDelay <= max_delay_samples sr` holds
whenever the control value lies between `0` and `max_delay_samples sr`. -/
theorem C9_delay_length_in_range_for_in_range_control (sr : Int) (h : Host)
    (e : neural_amp_plugin) (chs : List channel_t)
    (hv : e.vChannels = some chs) (hn : e.nChannels = chs.length)
    (hg : valid h e.pGainOut) (hb : valid h e.pBypass)
    (hc : ∀ c ∈ chs, valid h c.pDry ∧ valid h c.pWet ∧ valid h c.pDelay) :
    ∃ (e2 : neural_amp_plugin) (chs2 : List channel_t),
      (do let e1 ← update_sample_rate sr e
          update_settings h e1) = .ok e2 ∧
      e2.vChannels = some chs2 ∧ chs2.length = chs.length ∧
      ∀ (i : Nat) (c c2 : channel_t), chs[i]? = some c → chs2[i]? = some c2 →
        c2.sLine.nCap = max_delay_samples sr ∧
        c2.nDelay = trunc (value_at h c.pDelay) ∧
        (0 ≤ value_at h c.pDelay → value_at h c.pDelay ≤ (max_delay_samples sr : ℚ) →
          0 ≤ c2.nDelay ∧ c2.nDelay ≤ (max_delay_samples sr : Int)) := by
  have hc1 : ∀ c ∈ chs.map (rate_channel sr),
      valid h c.pDry ∧ valid h c.pWet ∧ valid h c.pDelay := by
    intro c hmem
    obtain ⟨c0, hc0, rfl⟩ := List.mem_map.mp hmem
    exact hc c0 hc0
  have h2 := update_settings_ok h { e with vChannels := some (chs.map (rate_channel sr)) }
    (chs.map (rate_channel sr)) rfl (by simpa using hn) hg hb hc1
  refine ⟨{ e with vChannels := some ((chs.map (rate_channel sr)).map (settings_closed h
      (value_at h e.pGainOut) (decide (value_at h e.pBypass ≥ 1 / 2)))) },
    (chs.map (rate_channel sr)).map (settings_closed h
      (value_at h e.pGainOut) (decide (value_at h e.pBypass ≥ 1 / 2))), ?_, rfl, by simp, ?_⟩
  · rw [update_sample_rate_ok sr e chs hv hn]
    exact h2
  · intro i c c2 hci hc2
    rw [List.getElem?_map, List.getElem?_map, hci] at hc2
    cases hc2
    exact ⟨rfl, rfl, fun h0 hm => trunc_bounds h0 hm⟩

/-- C9 (witness): the amended statement applied to the stereo instance and the port values
of `settings_host` (delay control 480.75 samples, within the capacity of 480000). -/
theorem C9_delay_length_witness :
    stereo_ready.vChannels = some [ch_stereo 48000 0, ch_stereo 48000 1] ∧
    stereo_ready.nChannels = [ch_stereo 48000 0, ch_stereo 48000 1].length ∧
    valid settings_host stereo_ready.pGainOut ∧ valid settings_host stereo_ready.pBypass ∧
    (∀ c ∈ [ch_stereo 48000 0, ch_stereo 48000 1],
      valid settings_host c.pDry ∧ valid settings_host c.pWet ∧ valid settings_host c.pDelay) ∧
    (0 ≤ value_at settings_host (ch_stereo 48000 0).pDelay ∧
      value_at settings_host (ch_stereo 48000 0).pDelay ≤ (max_delay_samples 48000 : ℚ)) ∧
    ∃ (e2 : neural_amp_plugin) (chs2 : List channel_t),
      (do let e1 ← update_sample_rate 48000 stereo_ready
          update_settings settings_host e1) = .ok e2 ∧
      e2.vChannels = some chs2 ∧
      chs2.length = [ch_stereo 48000 0, ch_stereo 48000 1].length ∧
      ∀ (i : Nat) (c c2 : channel_t),
        [ch_stereo 48000 0, ch_stereo 48000 1][i]? = some c → chs2[i]? = some c2 →
        c2.sLine.nCap = max_delay_samples 48000 ∧
        c2.nDelay = trunc (value_at settings_host c.pDelay) ∧
        (0 ≤ value_at settings_host c.pDelay →
          value_at settings_host c.pDelay ≤ (max_delay_samples 48000 : ℚ) →
          0 ≤ c2.nDelay ∧ c2.nDelay ≤ (max_delay_samples 48000 : Int)) :=
  have hc : ∀ c ∈ [ch_stereo 48000 0, ch_stereo 48000 1],
      valid settings_host c.pDry ∧ valid settings_host c.pWet ∧ valid settings_host c.pDelay := by
    intro c hmem
    simp only [List.mem_cons, List.mem_singleton, List.not_mem_nil, or_false] at hmem
    rcases hmem with rfl | rfl <;> exact ⟨⟨_, rfl⟩, ⟨_, rfl⟩, ⟨_, rfl⟩⟩
  ⟨rfl, rfl, ⟨_, rfl⟩, ⟨_, rfl⟩, hc, by decide!,
    C9_delay_length_in_range_for_in_range_control 48000 settings_host stereo_ready
      [ch_stereo 48000 0, ch_stereo 48000 1] rfl rfl ⟨_, rfl⟩ ⟨_, rfl⟩ hc⟩

/-! ### Outcome of a call that returns -/

theorem bind_eq_ok {α β : Type} (x : Except Fault α) (f : α → Except Fault β) (b : β) :
    (x >>= f) = .ok b ↔ ∃ a, x = .ok a ∧ f a = .ok b := by
  cases x with
  | error e => simp [bind, Except.bind]
  | ok a => simp [bind, Except.bind]

theorem nonnull_eq_ok {α : Type} (p : Option α) (a : α) : nonnull p = .ok a ↔ p = some a := by
  cases p <;> simp [nonnull]

theorem index_eq_ok {α : Type} (r : Region) (arr : List α) (i : Nat) (a : α) :
    index r arr i = .ok a ↔ arr[i]? = some a := by
  unfold index
  cases arr[i]? <;> simp

theorem deref_eq_ok (h : Host) (p : Option Nat) (port : IPort) :
    deref h p = .ok port ↔ ∃ k, p = some k ∧ h[k]? = some port := by
  unfold deref
  rw [bind_eq_ok]
  simp [nonnull_eq_ok, index_eq_ok]

theorem set_value_eq_ok (h h1 : Host) (p : Option Nat) (v : ℚ) :
    set_value h p v = .ok h1 ↔ ∃ k, p = some k ∧ k < h.length ∧ h1 = poke_value h k v := by
  constructor
  · intro hs
    unfold set_value at hs
    rw [bind_eq_ok] at hs
    obtain ⟨k, hk, hs⟩ := hs
    rw [bind_eq_ok] at hs
    obtain ⟨port, hport, hs⟩ := hs
    rw [nonnull_eq_ok] at hk
    rw [index_eq_ok] at hport
    have hlt : k < h.length := by
      rcases Nat.lt_or_ge k h.length with h1 | h1
      · exact h1
      · rw [List.getElem?_eq_none h1] at hport; cases hport
    refine ⟨k, hk, hlt, ?_⟩
    simp only [pure, Except.pure] at hs
    cases hs
    simp [poke_value, hport]
  · rintro ⟨k, rfl, hlt, rfl⟩
    exact set_value_ok h k v hlt

theorem set_buffer_eq_ok (h h1 : Host) (p : Option Nat) (b : List ℚ) :
    set_buffer h p b = .ok h1 ↔ ∃ k, p = some k ∧ k < h.length ∧ h1 = poke_buffer h k b := by
  constructor
  · intro hs
    unfold set_buffer at hs
    rw [bind_eq_ok] at hs
    obtain ⟨k, hk, hs⟩ := hs
    rw [bind_eq_ok] at hs
    obtain ⟨port, hport, hs⟩ := hs
    rw [nonnull_eq_ok] at hk
    rw [index_eq_ok] at hport
    have hlt : k < h.length := by
      rcases Nat.lt_or_ge k h.length with h1 | h1
      · exact h1
      · rw [List.getElem?_eq_none h1] at hport; cases hport
    refine ⟨k, hk, hlt, ?_⟩
    simp only [pure, Except.pure] at hs
    cases hs
    simp [poke_buffer, hport]
  · rintro ⟨k, rfl, hlt, rfl⟩
    exact set_buffer_ok h k b hlt

theorem process_channel_skip (sr : Int) (samples : Nat) (c : channel_t)
    (vb : Option (List ℚ)) (h : Host) (hi : valid h c.pIn) (ho : valid h c.pOut)
    (hs : skipped h c = true) :
    process_channel sr samples c vb h = .ok { c := c, vBuffer := vb, host := h } := by
  obtain ⟨pin, hpin⟩ := hi
  obtain ⟨pout, hpout⟩ := ho
  simp only [skipped, buffer_at, hpin, hpout] at hs
  unfold process_channel
  simp only [hpin, hpout, bind, Except.bind]
  cases hin : pin.pBuffer with
  | none => rfl
  | some inp =>
    cases hout : pout.pBuffer with
    | none => rfl
    | some out => simp [hin, hout] at hs

theorem process_channel_eq_ok (sr : Int) (samples : Nat) (c : channel_t)
    (vb : Option (List ℚ)) (h : Host) (r : ChannelResult) (inp out : List ℚ)
    (hi : buffer_at h c.pIn = some inp) (ho : buffer_at h c.pOut = some out)
    (hr : process_channel sr samples c vb h = .ok r) :
    ∃ (s : LoopState) (o a b d : Nat),
      process_loop c inp samples samples (loop_entry c vb out) = .ok s ∧
      c.pOut = some o ∧ c.pInLevel = some a ∧ c.pOutLevel = some b ∧ c.pOutDelay = some d ∧
      o < h.length ∧ a < h.length ∧ b < h.length ∧ d < h.length ∧
      r = { c := { c with sLine := s.sLine, sBypass := s.sBypass }, vBuffer := s.vBuffer,
            host := publish sr c h o a b d s } := by
  unfold buffer_at at hi ho
  cases hpin : deref h c.pIn with
  | error e => rw [hpin] at hi; cases hi
  | ok pin =>
    cases hpout : deref h c.pOut with
    | error e => rw [hpout] at ho; cases ho
    | ok pout =>
      rw [hpin] at hi
      rw [hpout] at ho
      simp only at hi ho
      unfold process_channel at hr
      simp only [hpin, hpout, bind, Except.bind, hi, ho] at hr
      cases hloop : process_loop c inp samples samples
          { sLine := c.sLine, sBypass := c.sBypass, vBuffer := vb, out := out,
            in_gain := 0, out_gain := 0, n := 0 } with
      | error e => rw [hloop] at hr; cases hr
      | ok s =>
        rw [hloop] at hr
        simp only at hr
        cases h1 : set_buffer h c.pOut s.out with
        | error e => rw [h1] at hr; cases hr
        | ok hh1 =>
          rw [h1] at hr
          simp only at hr
          cases h2 : set_value hh1 c.pInLevel s.in_gain with
          | error e => rw [h2] at hr; cases hr
          | ok hh2 =>
            rw [h2] at hr
            simp only at hr
            cases h3 : set_value hh2 c.pOutLevel s.out_gain with
            | error e => rw [h3] at hr; cases hr
            | ok hh3 =>
              rw [h3] at hr
              simp only at hr
              cases h4 : set_value hh3 c.pOutDelay (samples_to_millis sr c.nDelay) with
              | error e => rw [h4] at hr; cases hr
              | ok hh4 =>
                rw [h4] at hr
                simp only [pure, Except.pure] at hr
                cases hr
                obtain ⟨o, hpo, hol, rfl⟩ := (set_buffer_eq_ok _ _ _ _).mp h1
                obtain ⟨a, hpa, hal, rfl⟩ := (set_value_eq_ok _ _ _ _).mp h2
                obtain ⟨b, hpb, hbl, rfl⟩ := (set_value_eq_ok _ _ _ _).mp h3
                obtain ⟨d, hpd, hdl, rfl⟩ := (set_value_eq_ok _ _ _ _).mp h4
                rw [poke_buffer_length] at hal
                rw [poke_value_length, poke_buffer_length] at hbl
                rw [poke_value_length, poke_value_length, poke_buffer_length] at hdl
                exact ⟨s, o, a, b, d, hloop, hpo, hpa, hpb, hpd, hol, hal, hbl, hdl, rfl⟩

theorem buffer_at_eq_some (h : Host) (p : Option Nat) (b : List ℚ) :
    buffer_at h p = some b ↔ ∃ k port, p = some k ∧ h[k]? = some port ∧ port.pBuffer = some b := by
  unfold buffer_at
  cases hd : deref h p with
  | error e =>
    constructor
    · intro hb
      cases hb
    · rintro ⟨k, port, hp, hk, _⟩
      rw [(deref_eq_ok h p port).mpr ⟨k, hp, hk⟩] at hd
      cases hd
  | ok port =>
    obtain ⟨k, hp, hk⟩ := (deref_eq_ok h p port).mp hd
    constructor
    · intro hb
      exact ⟨k, port, hp, hk, hb⟩
    · rintro ⟨k1, port1, hp1, hk1, hb1⟩
      rw [hp] at hp1
      cases hp1
      rw [hk] at hk1
      cases hk1
      exact hb1

theorem value_at_poke_value (h : Host) (k : Nat) (v : ℚ) (hk : k < h.length) :
    value_at (poke_value h k v) (some k) = v := by
  have h1 : (poke_value h k v)[k]? = some { h[k] with fValue := v } := by
    simp [poke_value, List.getElem?_eq_getElem hk, List.getElem?_set, hk]
  simp [value_at, deref_some _ _ _ h1]

theorem process_channel_fits (sr : Int) (samples : Nat) (c : channel_t) (buf : List ℚ) (h : Host)
    (a b d : Nat) (inp out : List ℚ)
    (hi : buffer_at h c.pIn = some inp) (ho : buffer_at h c.pOut = some out)
    (ha : c.pInLevel = some a) (hal : a < h.length)
    (hb : c.pOutLevel = some b) (hbl : b < h.length)
    (hd : c.pOutDelay = some d) (hdl : d < h.length)
    (hlen : buf.length = BUFFER_SIZE) (hs : samples ≤ BUFFER_SIZE)
    (hsi : samples ≤ inp.length) (hso : samples ≤ out.length) :
    ∃ r, process_channel sr samples c (some buf) h = .ok r := by
  obtain ⟨i, pin, hpi, hpin, hinp⟩ := (buffer_at_eq_some _ _ _).mp hi
  obtain ⟨o, pout, hpo, hpout, hout⟩ := (buffer_at_eq_some _ _ _).mp ho
  exact ⟨_, process_channel_ok sr samples c buf h i o a b d pin pout inp out hpi hpin hinp
    hpo hpout hout ha hal hb hbl hd hdl hlen hs hsi hso⟩

/-! ### C13 -/

theorem log2_steps_spec : ∀ (fuel n : Nat), n ≤ fuel → 1 ≤ n →
    2 ^ log2_steps fuel n ≤ n ∧ n < 2 ^ (log2_steps fuel n + 1) := by
  intro fuel
  induction fuel with
  | zero => intro n h1 h2; omega
  | succ fuel ih =>
    intro n h1 h2
    by_cases h : 2 ≤ n
    · simp only [log2_steps, h, if_true]
      obtain ⟨ha, hb⟩ := ih (n / 2) (by omega) (by omega)
      rw [pow_succ] at hb ⊢
      rw [pow_succ (2) (log2_steps fuel (n / 2) + 1), pow_succ]
      constructor <;> omega
    · simp only [log2_steps, h, if_false]
      constructor <;> simp <;> omega

theorem abs_eq_natAbs_div_den (x : ℚ) : |x| = (x.num.natAbs : ℚ) / (x.den : ℚ) := by
  have hd : (0 : ℚ) < (x.den : ℚ) := by exact_mod_cast x.den_pos
  conv_lhs => rw [← Rat.num_div_den x]
  rw [abs_div, abs_of_pos hd, Nat.cast_natAbs, Int.cast_abs]

theorem ilog2_spec (x : ℚ) (hx : x ≠ 0) :
    (2 : ℚ) ^ ilog2 x ≤ |x| ∧ |x| < (2 : ℚ) ^ (ilog2 x + 1) := by
  have hp : 1 ≤ x.num.natAbs := by
    have : x.num ≠ 0 := Rat.num_ne_zero.mpr hx
    omega
  have hq : 1 ≤ x.den := x.den_pos
  obtain ⟨hp1, hp2⟩ := log2_steps_spec _ _ (le_refl _) hp
  obtain ⟨hq1, hq2⟩ := log2_steps_spec _ _ (le_refl _) hq
  have hqpos : (0 : ℚ) < (x.den : ℚ) := by exact_mod_cast x.den_pos
  have habs := abs_eq_natAbs_div_den x
  have hp1q : ((2 : ℚ) ^ log2_steps x.num.natAbs x.num.natAbs) ≤ (x.num.natAbs : ℚ) := by
    exact_mod_cast hp1
  have hp2q : (x.num.natAbs : ℚ) < (2 : ℚ) ^ (log2_steps x.num.natAbs x.num.natAbs + 1) := by
    exact_mod_cast hp2
  have hq1q : ((2 : ℚ) ^ log2_steps x.den x.den) ≤ (x.den : ℚ) := by exact_mod_cast hq1
  have hq2q : (x.den : ℚ) < (2 : ℚ) ^ (log2_steps x.den x.den + 1) := by exact_mod_cast hq2
  have h2 : (2 : ℚ) ≠ 0 := two_ne_zero
  unfold ilog2
  simp only []
  split
  · rename_i hle
    refine ⟨hle, ?_⟩
    rw [habs, div_lt_iff₀ hqpos]
    have e1 : (2 : ℚ) ^ ((log2_steps x.num.natAbs x.num.natAbs : Int)
        - (log2_steps x.den x.den : Int) + 1)
        = (2 : ℚ) ^ (log2_steps x.num.natAbs x.num.natAbs + 1)
          / (2 : ℚ) ^ (log2_steps x.den x.den) := by
      rw [eq_div_iff (pow_ne_zero _ h2), ← zpow_natCast, ← zpow_natCast, ← zpow_add₀ h2]
      congr 1
      push_cast
      ring
    rw [e1, div_mul_eq_mul_div, lt_div_iff₀ (pow_pos (by norm_num) _)]
    calc (x.num.natAbs : ℚ) * 2 ^ log2_steps x.den x.den
        ≤ (x.num.natAbs : ℚ) * (x.den : ℚ) :=
          mul_le_mul_of_nonneg_left hq1q (by positivity)
      _ < 2 ^ (log2_steps x.num.natAbs x.num.natAbs + 1) * (x.den : ℚ) :=
          mul_lt_mul_of_pos_right hp2q hqpos
  · rename_i hle
    have hlt := lt_of_not_le hle
    constructor
    · rw [habs, le_div_iff₀ hqpos]
      have e1 : (2 : ℚ) ^ ((log2_steps x.num.natAbs x.num.natAbs : Int)
          - (log2_steps x.den x.den : Int) - 1)
          = (2 : ℚ) ^ (log2_steps x.num.natAbs x.num.natAbs)
            / (2 : ℚ) ^ (log2_steps x.den x.den + 1) := by
        rw [eq_div_iff (pow_ne_zero _ h2), ← zpow_natCast, ← zpow_natCast, ← zpow_add₀ h2]
        congr 1
        push_cast
        ring
      rw [e1, div_mul_eq_mul_div, div_le_iff₀ (pow_pos (by norm_num) _)]
      calc (2 : ℚ) ^ log2_steps x.num.natAbs x.num.natAbs * (x.den : ℚ)
          ≤ (x.num.natAbs : ℚ) * (x.den : ℚ) :=
            mul_le_mul_of_nonneg_right hp1q (le_of_lt hqpos)
        _ ≤ (x.num.natAbs : ℚ) * 2 ^ (log2_steps x.den x.den + 1) :=
            mul_le_mul_of_nonneg_left (le_of_lt hq2q) (by positivity)
    · rw [sub_add_cancel]
      exact hlt

theorem round_even_near (m : ℚ) : |(round_even m : ℚ) - m| ≤ 1 / 2 := by
  have h1 := Int.floor_le m
  have h2 := Int.lt_floor_add_one m
  unfold round_even
  simp only []
  rw [abs_le]
  split
  · constructor <;> linarith
  · split
    · push_cast
      constructor <;> linarith
    · split
      · constructor <;> linarith
      · push_cast
        constructor <;> linarith

theorem to_float_zero : to_float 0 = 0 := by simp [to_float]

theorem ilog2_ge (x : ℚ) (hx : (2 : ℚ) ^ (-126 : Int) ≤ |x|) : -126 ≤ ilog2 x := by
  have hne : x ≠ 0 := by
    intro h0
    rw [h0, abs_zero] at hx
    have : (0 : ℚ) < (2 : ℚ) ^ (-126 : Int) := by positivity
    linarith
  have h1 := (ilog2_spec x hne).2
  have h2 : (2 : ℚ) ^ (-126 : Int) < (2 : ℚ) ^ (ilog2 x + 1) := lt_of_le_of_lt hx h1
  have h3 := (zpow_lt_zpow_iff_right₀ (by norm_num : (1 : ℚ) < 2)).mp h2
  omega

/-- Relative error of one rounding in the normal range. -/
theorem to_float_near (x : ℚ) (hx : (2 : ℚ) ^ (-126 : Int) ≤ |x|) :
    |to_float x - x| ≤ |x| / 2 ^ 24 := by
  have hne : x ≠ 0 := by
    intro h0
    rw [h0, abs_zero] at hx
    have : (0 : ℚ) < (2 : ℚ) ^ (-126 : Int) := by positivity
    linarith
  have he : max (ilog2 x) (-126) = ilog2 x := max_eq_left (ilog2_ge x hx)
  have hlow := (ilog2_spec x hne).1
  have hpos : (0 : ℚ) < (2 : ℚ) ^ (ilog2 x - 23) := by positivity
  have hr := round_even_near (x / 2 ^ (ilog2 x - 23))
  have hsplit : (2 : ℚ) ^ (ilog2 x) = 2 ^ (ilog2 x - 23) * 2 ^ 23 := by
    rw [← zpow_natCast, ← zpow_add₀ (two_ne_zero)]
    congr 1
    push_cast
    ring
  unfold to_float
  simp only [hne, if_false, he]
  have e1 : (round_even (x / 2 ^ (ilog2 x - 23)) : ℚ) * 2 ^ (ilog2 x - 23) - x
      = ((round_even (x / 2 ^ (ilog2 x - 23)) : ℚ) - x / 2 ^ (ilog2 x - 23))
        * 2 ^ (ilog2 x - 23) := by
    field_simp
  rw [e1, abs_mul, abs_of_pos hpos]
  calc |(round_even (x / 2 ^ (ilog2 x - 23)) : ℚ) - x / 2 ^ (ilog2 x - 23)| * 2 ^ (ilog2 x - 23)
      ≤ 1 / 2 * 2 ^ (ilog2 x - 23) := mul_le_mul_of_nonneg_right hr (le_of_lt hpos)
    _ = 2 ^ (ilog2 x) / 2 ^ 24 := by rw [hsplit]; ring
    _ ≤ |x| / 2 ^ 24 := div_le_div_of_nonneg_right hlow (by positivity)

/-- Multiplicative form of `to_float_near`. -/
theorem to_float_factor (x : ℚ) (hx : (2 : ℚ) ^ (-126 : Int) ≤ |x|) :
    ∃ δ : ℚ, |δ| ≤ 1 / 2 ^ 24 ∧ to_float x = x * (1 + δ) := by
  have hne : x ≠ 0 := by
    intro h0
    rw [h0, abs_zero] at hx
    have : (0 : ℚ) < (2 : ℚ) ^ (-126 : Int) := by positivity
    linarith
  refine ⟨(to_float x - x) / x, ?_, by field_simp⟩
  rw [abs_div, div_le_iff₀ (abs_pos.mpr hne)]
  have := to_float_near x hx
  calc |to_float x - x| ≤ |x| / 2 ^ 24 := this
    _ = 1 / 2 ^ 24 * |x| := by ring

/-- The four roundings of `samples_to_millis sr a` for a delay `a ≠ 0` and a rate
`0 < sr < 2^63`: every operand lies in the normal range of `float`, so every rounding
is a factor `1 + δ` with `|δ| ≤ 2^-24`. -/
theorem samples_to_millis_factors (sr a : Int) (hsr : 0 < sr) (hsr2 : sr < 2 ^ 63)
    (ha : a ≠ 0) :
    ∃ d1 d2 d3 d4 : ℚ, |d1| ≤ 1 / 2 ^ 24 ∧ |d2| ≤ 1 / 2 ^ 24 ∧ |d3| ≤ 1 / 2 ^ 24 ∧
      |d4| ≤ 1 / 2 ^ 24 ∧
      to_float (a : ℚ) = (a : ℚ) * (1 + d1) ∧
      to_float (sr : ℚ) = (sr : ℚ) * (1 + d2) ∧
      to_float (to_float (a : ℚ) / to_float (sr : ℚ))
        = to_float (a : ℚ) / to_float (sr : ℚ) * (1 + d3) ∧
      samples_to_millis sr a
        = to_float (to_float (a : ℚ) / to_float (sr : ℚ)) * 1000 * (1 + d4) := by
  have hsrq : (0 : ℚ) < (sr : ℚ) := by exact_mod_cast hsr
  have hsrq1 : (1 : ℚ) ≤ (sr : ℚ) := by exact_mod_cast hsr
  have hsrq2 : (sr : ℚ) ≤ 2 ^ 63 := by exact_mod_cast (le_of_lt hsr2)
  have ha1 : (1 : ℚ) ≤ |(a : ℚ)| := by
    have : 1 ≤ |a| := Int.one_le_abs ha
    exact_mod_cast this
  have hsmall : (2 : ℚ) ^ (-126 : Int) ≤ 1 / 2 ^ 80 := by norm_num
  obtain ⟨d1, hd1, hA⟩ := to_float_factor (a : ℚ)
    (le_trans hsmall (le_trans (by norm_num) ha1))
  obtain ⟨d2, hd2, hB⟩ := to_float_factor (sr : ℚ)
    (by rw [abs_of_pos hsrq]; exact le_trans hsmall (le_trans (by norm_num) hsrq1))
  obtain ⟨l1, u1⟩ := abs_le.mp hd1
  obtain ⟨l2, u2⟩ := abs_le.mp hd2
  have hu : (1 : ℚ) / 2 ^ 24 ≤ 1 / 2 := by norm_num
  have f1 : (1 : ℚ) / 2 ≤ 1 + d1 := by linarith
  have f2 : (0 : ℚ) < 1 + d2 := by linarith
  have f2u : 1 + d2 ≤ (2 : ℚ) := by linarith
  have hquot : (1 : ℚ) / 2 ^ 65 ≤ |to_float (a : ℚ) / to_float (sr : ℚ)| := by
    rw [hA, hB, abs_div, abs_mul, abs_mul, abs_of_pos hsrq, abs_of_pos f2,
      abs_of_pos (by linarith : (0 : ℚ) < 1 + d1), le_div_iff₀ (mul_pos hsrq f2)]
    have e1 : (1 : ℚ) / 2 ^ 65 * ((sr : ℚ) * (1 + d2)) ≤ 1 / 2 ^ 65 * (2 ^ 63 * 2) :=
      mul_le_mul_of_nonneg_left (mul_le_mul hsrq2 f2u (le_of_lt f2) (by norm_num)) (by norm_num)
    have e2 : (1 : ℚ) * (1 / 2) ≤ |(a : ℚ)| * (1 + d1) :=
      mul_le_mul ha1 f1 (by norm_num) (abs_nonneg _)
    have e3 : (1 : ℚ) / 2 ^ 65 * (2 ^ 63 * 2) = 1 * (1 / 2) := by norm_num
    linarith
  obtain ⟨d3, hd3, hQ⟩ := to_float_factor (to_float (a : ℚ) / to_float (sr : ℚ))
    (le_trans hsmall (le_trans (by norm_num) hquot))
  obtain ⟨l3, u3⟩ := abs_le.mp hd3
  have f3 : (1 : ℚ) / 2 ≤ 1 + d3 := by linarith
  have hprod : (1 : ℚ) / 2 ^ 66
      ≤ |to_float (to_float (a : ℚ) / to_float (sr : ℚ)) * 1000| := by
    rw [hQ, abs_mul, abs_mul, abs_of_pos (by linarith : (0 : ℚ) < 1 + d3),
      abs_of_pos (by norm_num : (0 : ℚ) < 1000)]
    have e1 : (1 : ℚ) / 2 ^ 65 * (1 / 2)
        ≤ |to_float (a : ℚ) / to_float (sr : ℚ)| * (1 + d3) :=
      mul_le_mul hquot f3 (by norm_num) (abs_nonneg _)
    have e3 : (1 : ℚ) / 2 ^ 65 * (1 / 2) = 1 / 2 ^ 66 := by norm_num
    linarith
  obtain ⟨d4, hd4, hR⟩ := to_float_factor
    (to_float (to_float (a : ℚ) / to_float (sr : ℚ)) * 1000)
    (le_trans hsmall (le_trans (by norm_num) hprod))
  exact ⟨d1, d2, d3, d4, hd1, hd2, hd3, hd4, hA, hB, hQ, hR⟩

/-- No value of the computation of `samples_to_millis` on a 64-bit delay length and a
64-bit positive rate reaches `2^128`, the magnitude from which `float` rounds to
infinity. -/
theorem samples_to_millis_finite (sr a : Int) (hsr : 0 < sr) (hsr2 : sr < 2 ^ 63)
    (hlo : -2 ^ 63 ≤ a) (hhi : a < 2 ^ 63) :
    |to_float (a : ℚ)| < 2 ^ 128 ∧ |to_float (sr : ℚ)| < 2 ^ 128 ∧
    |to_float (a : ℚ) / to_float (sr : ℚ)| < 2 ^ 128 ∧
    |to_float (to_float (a : ℚ) / to_float (sr : ℚ)) * 1000| < 2 ^ 128 ∧
    |samples_to_millis sr a| < 2 ^ 128 := by
  have hsrq : (0 : ℚ) < (sr : ℚ) := by exact_mod_cast hsr
  have hsrq1 : (1 : ℚ) ≤ (sr : ℚ) := by exact_mod_cast hsr
  have hsrq2 : (sr : ℚ) ≤ 2 ^ 63 := by exact_mod_cast (le_of_lt hsr2)
  have hsmall : (2 : ℚ) ^ (-126 : Int) ≤ 1 := by norm_num
  obtain ⟨d2, hd2, hB⟩ := to_float_factor (sr : ℚ)
    (by rw [abs_of_pos hsrq]; exact le_trans hsmall hsrq1)
  obtain ⟨l2, u2⟩ := abs_le.mp hd2
  have hu : (1 : ℚ) / 2 ^ 24 ≤ 1 / 2 := by norm_num
  have g2 : (1 : ℚ) / 2 ≤ 1 + d2 := by linarith
  have g2u : 1 + d2 ≤ (2 : ℚ) := by linarith
  have hBabs : |to_float (sr : ℚ)| < 2 ^ 128 := by
    rw [hB, abs_mul, abs_of_pos hsrq, abs_of_pos (by linarith : (0 : ℚ) < 1 + d2)]
    have : (sr : ℚ) * (1 + d2) ≤ 2 ^ 63 * 2 :=
      mul_le_mul hsrq2 g2u (by linarith) (by norm_num)
    exact lt_of_le_of_lt this (by norm_num)
  by_cases ha : a = 0
  · subst ha
    simp only [samples_to_millis, Int.cast_zero, to_float_zero, zero_div, zero_mul, abs_zero]
    exact ⟨by norm_num, hBabs, by norm_num, by norm_num, by norm_num⟩
  obtain ⟨d1, e2, d3, d4, hd1, he2, hd3, hd4, hA, hB2, hQ, hR⟩ :=
    samples_to_millis_factors sr a hsr hsr2 ha
  obtain ⟨l1, u1⟩ := abs_le.mp hd1
  obtain ⟨l3, u3⟩ := abs_le.mp hd3
  obtain ⟨l4, u4⟩ := abs_le.mp hd4
  obtain ⟨m2, v2⟩ := abs_le.mp he2
  have haq : |(a : ℚ)| ≤ 2 ^ 63 := by
    rw [abs_le]
    constructor
    · exact_mod_cast hlo
    · exact_mod_cast (le_of_lt hhi)
  have g1 : (0 : ℚ) < 1 + d1 := by linarith
  have g3 : (0 : ℚ) < 1 + d3 := by linarith
  have g4 : (0 : ℚ) < 1 + d4 := by linarith
  have k2 : (1 : ℚ) / 2 ≤ 1 + e2 := by linarith
  have hAabs : |to_float (a : ℚ)| ≤ 2 ^ 64 := by
    rw [hA, abs_mul, abs_of_pos g1]
    have : |(a : ℚ)| * (1 + d1) ≤ 2 ^ 63 * 2 :=
      mul_le_mul haq (by linarith) (le_of_lt g1) (by norm_num)
    exact le_trans this (by norm_num)
  have hBlow : (1 : ℚ) / 2 ≤ |to_float (sr : ℚ)| := by
    rw [hB2, abs_mul, abs_of_pos hsrq, abs_of_pos (by linarith : (0 : ℚ) < 1 + e2)]
    have : (1 : ℚ) * (1 / 2) ≤ (sr : ℚ) * (1 + e2) :=
      mul_le_mul hsrq1 k2 (by norm_num) (le_of_lt hsrq)
    linarith
  have hquot : |to_float (a : ℚ) / to_float (sr : ℚ)| ≤ 2 ^ 65 := by
    rw [abs_div, div_le_iff₀ (by linarith)]
    have : (2 : ℚ) ^ 65 * (1 / 2) ≤ 2 ^ 65 * |to_float (sr : ℚ)| :=
      mul_le_mul_of_nonneg_left hBlow (by norm_num)
    have e : (2 : ℚ) ^ 65 * (1 / 2) = 2 ^ 64 := by norm_num
    linarith
  have hQabs : |to_float (to_float (a : ℚ) / to_float (sr : ℚ))| ≤ 2 ^ 66 := by
    rw [hQ, abs_mul, abs_of_pos g3]
    have : |to_float (a : ℚ) / to_float (sr : ℚ)| * (1 + d3) ≤ 2 ^ 65 * 2 :=
      mul_le_mul hquot (by linarith) (le_of_lt g3) (by norm_num)
    exact le_trans this (by norm_num)
  have hprod : |to_float (to_float (a : ℚ) / to_float (sr : ℚ)) * 1000| ≤ 2 ^ 76 := by
    rw [abs_mul, abs_of_pos (by norm_num : (0 : ℚ) < 1000)]
    have : |to_float (to_float (a : ℚ) / to_float (sr : ℚ))| * 1000 ≤ 2 ^ 66 * 1000 :=
      mul_le_mul_of_nonneg_right hQabs (by norm_num)
    exact le_trans this (by norm_num)
  have hRabs : |samples_to_millis sr a| ≤ 2 ^ 77 := by
    rw [hR, abs_mul, abs_of_pos g4]
    have : |to_float (to_float (a : ℚ) / to_float (sr : ℚ)) * 1000| * (1 + d4) ≤ 2 ^ 76 * 2 :=
      mul_le_mul hprod (by linarith) (le_of_lt g4) (by norm_num)
    exact le_trans this (by norm_num)
  exact ⟨lt_of_le_of_lt hAabs (by norm_num), hBabs, lt_of_le_of_lt hquot (by norm_num),
    lt_of_le_of_lt hprod (by norm_num), lt_of_le_of_lt hRabs (by norm_num)⟩

theorem settings_closed_idem (h : Host) (out_gain : ℚ) (bypass : Bool) (c : channel_t) :
    settings_closed h out_gain bypass (settings_closed h out_gain bypass c)
      = settings_closed h out_gain bypass c := rfl

/-- C11: when the pointers read by `update_settings` are valid, calling it twice in a row
on the same port values yields exactly the state of a single call (every channel's
`nDelay`, `fDryGain`, `fWetGain`, Delay Line and Crossfader), hence the same result of a
following `process` on any input. -/
theorem C11_update_settings_idempotent (h : Host) (e : neural_amp_plugin)
    (chs : List channel_t)
    (hv : e.vChannels = some chs) (hn : e.nChannels = chs.length)
    (hg : valid h e.pGainOut) (hb : valid h e.pBypass)
    (hc : ∀ c ∈ chs, valid h c.pDry ∧ valid h c.pWet ∧ valid h c.pDelay) :
    (∃ e1, update_settings h e = .ok e1 ∧ update_settings h e1 = .ok e1) ∧
    (do let e1 ← update_settings h e
        update_settings h e1) = update_settings h e ∧
    ∀ (samples : Nat) (audio_ports : Host),
      (do let e1 ← update_settings h e
          let e2 ← update_settings h e1
          process samples { plug := e2, host := audio_ports })
        = (do let e1 ← update_settings h e
              process samples { plug := e1, host := audio_ports }) := by
  have h1 := update_settings_ok h e chs hv hn hg hb hc
  have hc1 : ∀ c ∈ chs.map (settings_closed h (value_at h e.pGainOut)
      (decide (value_at h e.pBypass ≥ 1 / 2))),
      valid h c.pDry ∧ valid h c.pWet ∧ valid h c.pDelay := by
    intro c hmem
    obtain ⟨c0, hc0, rfl⟩ := List.mem_map.mp hmem
    exact hc c0 hc0
  have h2 := update_settings_ok h
    { e with vChannels := some (chs.map (settings_closed h (value_at h e.pGainOut)
      (decide (value_at h e.pBypass ≥ 1 / 2)))) } _ rfl (by simpa using hn) hg hb hc1
  have h3 : update_settings h
      { e with vChannels := some (chs.map (settings_closed h (value_at h e.pGainOut)
        (decide (value_at h e.pBypass ≥ 1 / 2)))) }
      = .ok { e with vChannels := some (chs.map (settings_closed h (value_at h e.pGainOut)
        (decide (value_at h e.pBypass ≥ 1 / 2)))) } := by
    rw [h2]
    simp only [List.map_map]
    rfl
  refine ⟨⟨_, h1, h3⟩, ?_, ?_⟩
  · rw [h1]
    exact h3
  · intro samples audio_ports
    rw [h1]
    show (do let e2 ← update_settings h _; process samples { plug := e2, host := audio_ports })
      = _
    rw [h3]

/-- C11 (witness): the statement applied to the stereo instance after `init` and to the
port values of `settings_host`. -/
theorem C11_update_settings_idempotent_witness :
    stereo_ready.vChannels = some [ch_stereo 48000 0, ch_stereo 48000 1] ∧
    stereo_ready.nChannels = [ch_stereo 48000 0, ch_stereo 48000 1].length ∧
    valid settings_host stereo_ready.pGainOut ∧ valid settings_host stereo_ready.pBypass ∧
    (∀ c ∈ [ch_stereo 48000 0, ch_stereo 48000 1],
      valid settings_host c.pDry ∧ valid settings_host c.pWet ∧ valid settings_host c.pDelay) ∧
    ((∃ e1, update_settings settings_host stereo_ready = .ok e1 ∧
        update_settings settings_host e1 = .ok e1) ∧
    (do let e1 ← update_settings settings_host stereo_ready
        update_settings settings_host e1) = update_settings settings_host stereo_ready ∧
    ∀ (samples : Nat) (audio_ports : Host),
      (do let e1 ← update_settings settings_host stereo_ready
          let e2 ← update_settings settings_host e1
          process samples { plug := e2, host := audio_ports })
        = (do let e1 ← update_settings settings_host stereo_ready
              process samples { plug := e1, host := audio_ports })) :=
  have hc : ∀ c ∈ [ch_stereo 48000 0, ch_stereo 48000 1],
      valid settings_host c.pDry ∧ valid settings_host c.pWet ∧ valid settings_host c.pDelay := by
    intro c hmem
    simp only [List.mem_cons, List.mem_singleton, List.not_mem_nil, or_false] at hmem
    rcases hmem with rfl | rfl <;> exact ⟨⟨_, rfl⟩, ⟨_, rfl⟩, ⟨_, rfl⟩⟩
  ⟨rfl, rfl, ⟨_, rfl⟩, ⟨_, rfl⟩, hc,
    C11_update_settings_idempotent settings_host stereo_ready
      [ch_stereo 48000 0, ch_stereo 48000 1] rfl rfl ⟨_, rfl⟩ ⟨_, rfl⟩ hc⟩

/-! ### The chunk loop of a call that returns -/

theorem rd_eq_ok {op : Op} {r : Region} {buf xs : List ℚ} {off count : Nat}
    (h : rd op r buf off count = .ok xs) :
    off + count ≤ buf.length ∧ xs = (buf.drop off).take count := by
  unfold rd at h
  split at h
  · cases h
    exact ⟨by assumption, rfl⟩
  · cases h

theorem wr_eq_ok {op : Op} {r : Region} {buf xs ys : List ℚ} {off : Nat}
    (h : wr op r buf off xs = .ok ys) :
    off + xs.length ≤ buf.length ∧ ys = buf.take off ++ xs ++ buf.drop (off + xs.length) := by
  unfold wr at h
  split at h
  · cases h
    exact ⟨by assumption, rfl⟩
  · cases h

theorem bypass_process_state (dry wet : List ℚ) :
    ∀ b : Bypass, (b.process dry wet).1 = Bypass.advance^[min dry.length wet.length] b := by
  induction dry generalizing wet with
  | nil => intro b; cases wet <;> simp [Bypass.process]
  | cons d ds ih =>
    intro b
    cases wet with
    | nil => simp [Bypass.process]
    | cons w ws =>
      simp only [Bypass.process, ih, List.length_cons, Nat.add_min_add_right,
        Function.iterate_succ, Function.comp]

theorem process_chunk_eq_ok (c : channel_t) (inp : List ℚ) (samples : Nat) (s s1 : LoopState)
    (h : process_chunk c inp samples s = .ok s1) :
    s1.n = s.n + lsp_min (samples - s.n) BUFFER_SIZE ∧
    s1.sBypass = Bypass.advance^[lsp_min (samples - s.n) BUFFER_SIZE] s.sBypass ∧
    (∃ buf, s.vBuffer = some buf ∧ samples ≤ buf.length) ∧
    s.n + samples ≤ inp.length := by
  unfold process_chunk at h
  simp only [] at h
  obtain ⟨buf0, hb0, h⟩ := (bind_eq_ok _ _ _).mp h
  obtain ⟨src, hsrc, h⟩ := (bind_eq_ok _ _ _).mp h
  obtain ⟨buf1, hb1, h⟩ := (bind_eq_ok _ _ _).mp h
  obtain ⟨buf2, hb2, h⟩ := (bind_eq_ok _ _ _).mp h
  obtain ⟨a, ha, h⟩ := (bind_eq_ok _ _ _).mp h
  obtain ⟨b, hb, h⟩ := (bind_eq_ok _ _ _).mp h
  obtain ⟨dry, hdry, h⟩ := (bind_eq_ok _ _ _).mp h
  obtain ⟨wet, hwet, h⟩ := (bind_eq_ok _ _ _).mp h
  obtain ⟨out, hout, h⟩ := (bind_eq_ok _ _ _).mp h
  simp only [pure, Except.pure] at h
  cases h
  obtain ⟨hdl, rfl⟩ := rd_eq_ok hdry
  obtain ⟨hwl, rfl⟩ := rd_eq_ok hwet
  obtain ⟨hsl, rfl⟩ := rd_eq_ok hsrc
  obtain ⟨hw1, _⟩ := wr_eq_ok hb1
  rw [process_ramping_length, take_drop_length hsl] at hw1
  refine ⟨rfl, ?_, ⟨buf0, (nonnull_eq_ok _ _).mp hb0, by omega⟩, hsl⟩
  simp only []
  rw [bypass_process_state, take_drop_length hdl, take_drop_length hwl, Nat.min_self]

/-! ### Faults and fuel of the chunk loop -/

theorem poke_value_getElem? (h : Host) (k j : Nat) (v : ℚ) :
    (poke_value h k v)[j]?
      = if j = k then (h[k]?).map (fun p => { p with fValue := v }) else h[j]? := by
  unfold poke_value
  cases hk : h[k]? with
  | none =>
    by_cases hj : j = k
    · subst hj; simp [hk]
    · simp [hj]
  | some p =>
    by_cases hj : j = k
    · subst hj
      have hlt : j < h.length := by
        rcases Nat.lt_or_ge j h.length with h1 | h1
        · exact h1
        · rw [List.getElem?_eq_none h1] at hk; cases hk
      simp [List.getElem?_set, hlt]
    · have hj2 : ¬ k = j := fun h1 => hj h1.symm
      simp [List.getElem?_set, hj, hj2]

theorem poke_buffer_getElem? (h : Host) (k j : Nat) (b : List ℚ) :
    (poke_buffer h k b)[j]?
      = if j = k then (h[k]?).map (fun p => { p with pBuffer := some b }) else h[j]? := by
  unfold poke_buffer
  cases hk : h[k]? with
  | none =>
    by_cases hj : j = k
    · subst hj; simp [hk]
    · simp [hj]
  | some p =>
    by_cases hj : j = k
    · subst hj
      have hlt : j < h.length := by
        rcases Nat.lt_or_ge j h.length with h1 | h1
        · exact h1
        · rw [List.getElem?_eq_none h1] at hk; cases hk
      simp [List.getElem?_set, hlt]
    · have hj2 : ¬ k = j := fun h1 => hj h1.symm
      simp [List.getElem?_set, hj, hj2]

theorem value_at_some (h : Host) (j : Nat) :
    value_at h (some j) = ((h[j]?).map (fun p => p.fValue)).getD 0 := by
  unfold value_at deref
  cases hj : h[j]? with
  | none => simp [nonnull, index, bind, Except.bind, hj]
  | some p => simp [nonnull, index, bind, Except.bind, hj]

theorem buffer_at_some (h : Host) (j : Nat) :
    buffer_at h (some j) = (h[j]?).bind (fun p => p.pBuffer) := by
  unfold buffer_at deref
  cases hj : h[j]? with
  | none => simp [nonnull, index, bind, Except.bind, hj]
  | some p => simp [nonnull, index, bind, Except.bind, hj]

theorem value_at_poke_value_ne (h : Host) (k j : Nat) (v : ℚ) (hj : j ≠ k) :
    value_at (poke_value h k v) (some j) = value_at h (some j) := by
  rw [value_at_some, value_at_some, poke_value_getElem?, if_neg hj]

theorem value_at_poke_buffer (h : Host) (k : Nat) (b : List ℚ) (p : Option Nat) :
    value_at (poke_buffer h k b) p = value_at h p := by
  cases p with
  | none => rfl
  | some j =>
    rw [value_at_some, value_at_some, poke_buffer_getElem?]
    by_cases hj : j = k
    · subst hj
      cases h[j]? <;> simp
    · rw [if_neg hj]

theorem buffer_at_poke_value (h : Host) (k : Nat) (v : ℚ) (p : Option Nat) :
    buffer_at (poke_value h k v) p = buffer_at h p := by
  cases p with
  | none => rfl
  | some j =>
    rw [buffer_at_some, buffer_at_some, poke_value_getElem?]
    by_cases hj : j = k
    · subst hj
      cases h[j]? <;> simp
    · rw [if_neg hj]

theorem buffer_at_poke_buffer (h : Host) (k : Nat) (b : List ℚ) (hk : k < h.length) :
    buffer_at (poke_buffer h k b) (some k) = some b := by
  rw [buffer_at_some, poke_buffer_getElem?, if_pos rfl, List.getElem?_eq_getElem hk]
  rfl

theorem buffer_at_poke_buffer_ne (h : Host) (k j : Nat) (b : List ℚ) (hj : j ≠ k) :
    buffer_at (poke_buffer h k b) (some j) = buffer_at h (some j) := by
  rw [buffer_at_some, buffer_at_some, poke_buffer_getElem?, if_neg hj]

theorem abs_max_fold_nonneg (l : List ℚ) :
    ∀ m : ℚ, 0 ≤ m → 0 ≤ l.foldl (fun m x => lsp_max m |x|) m := by
  induction l with
  | nil => intro m hm; exact hm
  | cons x xs ih =>
    intro m hm
    apply ih
    show 0 ≤ lsp_max m |x|
    unfold lsp_max
    split
    · exact hm
    · exact abs_nonneg x

theorem abs_max_nonneg (l : List ℚ) : 0 ≤ abs_max l := abs_max_fold_nonneg l 0 (le_refl 0)

theorem lsp_max_zero_abs_max (l : List ℚ) : lsp_max 0 (abs_max l) = abs_max l := by
  unfold lsp_max
  have := abs_max_nonneg l
  split
  · linarith
  · rfl

theorem level_meters_of_fitting_block (sr : Int) (samples : Nat) (c : channel_t)
    (buf : List ℚ) (h : Host) (a b d : Nat) (inp out : List ℚ)
    (hi : buffer_at h c.pIn = some inp) (ho : buffer_at h c.pOut = some out)
    (ha : c.pInLevel = some a) (hal : a < h.length)
    (hb : c.pOutLevel = some b) (hbl : b < h.length)
    (hd : c.pOutDelay = some d) (hdl : d < h.length)
    (hab : a ≠ b) (had : a ≠ d) (hbd : b ≠ d)
    (hlen : buf.length = BUFFER_SIZE) (hs : samples ≤ BUFFER_SIZE) (hpos : 0 < samples)
    (hsi : samples ≤ inp.length) (hso : samples ≤ out.length) :
    ∃ r, process_channel sr samples c (some buf) h = .ok r ∧
      value_at r.host c.pInLevel = abs_max (inp.take samples) ∧
      value_at r.host c.pOutLevel = abs_max ((mixed c.fDryGain
        (wet_chunk c inp samples (loop_entry c (some buf) out) ++ buf.drop samples)
        inp 0 samples).take samples) := by
  obtain ⟨i, pin, hpi, hpin, hinp⟩ := (buffer_at_eq_some _ _ _).mp hi
  obtain ⟨o, pout, hpo, hpout, hout⟩ := (buffer_at_eq_some _ _ _).mp ho
  have hr := process_channel_ok sr samples c buf h i o a b d pin pout inp out hpi hpin hinp
    hpo hpout hout ha hal hb hbl hd hdl hlen hs hsi hso
  refine ⟨_, hr, ?_, ?_⟩
  · simp only [channel_closed, ha, hpos, if_true]
    rw [value_at_poke_value_ne _ _ _ _ had, value_at_poke_value_ne _ _ _ _ hab,
      value_at_poke_value _ _ _ (by rw [poke_buffer_length]; exact hal)]
    simp only [chunk_closed, loop_entry, List.drop_zero, lsp_max_zero_abs_max]
  · simp only [channel_closed, hb, hpos, if_true]
    rw [value_at_poke_value_ne _ _ _ _ hbd,
      value_at_poke_value _ _ _ (by rw [poke_value_length, poke_buffer_length]; exact hbl)]
    simp only [chunk_closed, loop_entry, wet_chunk, List.drop_zero, Nat.sub_zero,
      lsp_min_small hs, lsp_max_zero_abs_max]

theorem mono_peak_block_overrun :
    process_channel 48000 4097 (ch_mono 48000) (some (List.replicate BUFFER_SIZE 0))
        (mono_host peak_block peak_block 0 0 0 1 1 0)
      = .error (.overrun .process_ramping .vBuffer 4097 BUFFER_SIZE) :=
  process_channel_overrun 48000 4097 (ch_mono 48000) (List.replicate BUFFER_SIZE 0)
    (mono_host peak_block peak_block 0 0 0 1 1 0)
    (audio peak_block) (audio peak_block)
    (List.replicate 4097 (1 / 2)) (List.replicate 4097 (1 / 2)) rfl rfl rfl rfl
    (List.length_replicate _ _) (by decide) (by rw [List.length_replicate])

/-- C8 (fails on the code): on a mono instance at 48 kHz, `process(4097)` on a block of
4097 samples of amplitude 1/2 returns no state, so neither level meter receives the
peak of the block: the first chunk already passes `samples`, not `count`, to
`process_ramping` and to both `abs_max` calls and leaves the scratch buffer. -/
theorem C8_no_meter_value_beyond_scratch :
    ∀ w1 : World,
      (do let w ← mono_setup 48000 (mono_host peak_block peak_block 0 0 0 1 1 0)
          process 4097 w) ≠ .ok w1 := by
  intro w1
  rw [mono_setup_eq]
  simp only [bind, Except.bind, process, for_each_one, process_step, nonnull, index,
    List.getElem?_cons_zero, mono_peak_block_overrun]
  intro h
  cases h

/-! ### Crossfader state across a call -/

theorem process_channel_cases (sr : Int) (samples : Nat) (c : channel_t)
    (vb : Option (List ℚ)) (h : Host) (r : ChannelResult)
    (hr : process_channel sr samples c vb h = .ok r) :
    (skipped h c = true ∧ r = { c := c, vBuffer := vb, host := h }) ∨
    (skipped h c = false ∧ ∃ (inp out : List ℚ) (s : LoopState) (o a b d : Nat),
      buffer_at h c.pIn = some inp ∧ buffer_at h c.pOut = some out ∧
      process_loop c inp samples samples (loop_entry c vb out) = .ok s ∧
      c.pOut = some o ∧ c.pInLevel = some a ∧ c.pOutLevel = some b ∧ c.pOutDelay = some d ∧
      o < h.length ∧ a < h.length ∧ b < h.length ∧ d < h.length ∧
      r = { c := { c with sLine := s.sLine, sBypass := s.sBypass }, vBuffer := s.vBuffer,
            host := publish sr c h o a b d s }) := by
  have hvi : valid h c.pIn := by
    cases hd : deref h c.pIn with
    | ok p => exact ⟨p, hd⟩
    | error e =>
      unfold process_channel at hr
      simp [hd, bind, Except.bind] at hr
  have hvo : valid h c.pOut := by
    obtain ⟨pin, hpin⟩ := hvi
    cases hd : deref h c.pOut with
    | ok p => exact ⟨p, hd⟩
    | error e =>
      unfold process_channel at hr
      simp [hpin, hd, bind, Except.bind] at hr
  cases hs : skipped h c with
  | true =>
    left
    rw [process_channel_skip sr samples c vb h hvi hvo hs] at hr
    cases hr
    exact ⟨rfl, rfl⟩
  | false =>
    right
    refine ⟨rfl, ?_⟩
    unfold skipped at hs
    cases hi : buffer_at h c.pIn with
    | none => simp [hi] at hs
    | some inp =>
      cases ho : buffer_at h c.pOut with
      | none => simp [ho] at hs
      | some out =>
        obtain ⟨s, o, a, b, d, h1⟩ := process_channel_eq_ok sr samples c vb h r inp out hi ho hr
        exact ⟨inp, out, s, o, a, b, d, rfl, rfl, h1⟩

theorem publish_buffer_isNone (sr : Int) (c : channel_t) (h : Host) (o a b d : Nat)
    (s : LoopState) (out : List ℚ) (ho : buffer_at h (some o) = some out) (p : Option Nat) :
    (buffer_at (publish sr c h o a b d s) p).isNone = (buffer_at h p).isNone := by
  unfold publish
  rw [buffer_at_poke_value, buffer_at_poke_value, buffer_at_poke_value]
  cases p with
  | none => rfl
  | some j =>
    by_cases hj : j = o
    · subst hj
      have hlt : j < h.length := by
        rw [buffer_at_some] at ho
        rcases Nat.lt_or_ge j h.length with h1 | h1
        · exact h1
        · rw [List.getElem?_eq_none h1] at ho; cases ho
      rw [buffer_at_poke_buffer h j _ hlt, ho]
      rfl
    · rw [buffer_at_poke_buffer_ne h o j _ hj]

theorem skipped_after_channel (sr : Int) (samples : Nat) (c : channel_t)
    (vb : Option (List ℚ)) (h : Host) (r : ChannelResult)
    (hr : process_channel sr samples c vb h = .ok r) (c1 : channel_t) :
    skipped r.host c1 = skipped h c1 := by
  rcases process_channel_cases sr samples c vb h r hr with ⟨_, rfl⟩ |
    ⟨_, inp, out, s, o, a, b, d, _, ho, _, hpo, _, _, _, _, _, _, _, rfl⟩
  · rfl
  · rw [hpo] at ho
    unfold skipped
    simp only [publish_buffer_isNone sr c h o a b d s out ho]

theorem process_step_eq_ok (samples i : Nat) (w w1 : World)
    (h : process_step samples i w = .ok w1) :
    ∃ (chs : List channel_t) (c : channel_t) (r : ChannelResult),
      w.plug.vChannels = some chs ∧ chs[i]? = some c ∧
      process_channel w.plug.fSampleRate samples c w.plug.vBuffer w.host = .ok r ∧
      w1 = { plug := { w.plug with vChannels := some (chs.set i r.c), vBuffer := r.vBuffer },
             host := r.host } := by
  unfold process_step at h
  obtain ⟨chs, hchs, h⟩ := (bind_eq_ok _ _ _).mp h
  obtain ⟨c, hc, h⟩ := (bind_eq_ok _ _ _).mp h
  obtain ⟨r, hr, h⟩ := (bind_eq_ok _ _ _).mp h
  simp only [pure, Except.pure] at h
  cases h
  exact ⟨chs, c, r, (nonnull_eq_ok _ _).mp hchs, (index_eq_ok _ _ _ _).mp hc, hr, rfl⟩

/-! ### C10 -/

theorem returns_ok {α : Type} (x : Except Fault α) (h : returns x = true) : ∃ a, x = .ok a := by
  cases x with
  | ok a => exact ⟨a, rfl⟩
  | error e => cases h

theorem wiring_skipped (h : Host) (c c1 : channel_t) (hw : wiring c = wiring c1) :
    skipped h c = skipped h c1 ∧ written c = written c1 := by
  simp only [wiring, List.cons.injEq, and_true] at hw
  obtain ⟨h1, h2, h3, h4, h5⟩ := hw
  simp only [skipped, written, h1, h2, h3, h4, h5, and_self]

theorem publish_getElem? (sr : Int) (c : channel_t) (h : Host) (o a b d : Nat) (s : LoopState)
    (k : Nat) (ho : k ≠ o) (ha : k ≠ a) (hb : k ≠ b) (hd : k ≠ d) :
    (publish sr c h o a b d s)[k]? = h[k]? := by
  unfold publish
  rw [poke_value_getElem?, if_neg hd, poke_value_getElem?, if_neg hb, poke_value_getElem?,
    if_neg ha, poke_buffer_getElem?, if_neg ho]

theorem process_channel_frame (sr : Int) (samples : Nat) (c : channel_t)
    (vb : Option (List ℚ)) (h : Host) (r : ChannelResult)
    (hr : process_channel sr samples c vb h = .ok r) :
    wiring r.c = wiring c ∧
    (skipped h c = true → r = { c := c, vBuffer := vb, host := h }) ∧
    (∀ k, some k ∉ written c → r.host[k]? = h[k]?) := by
  rcases process_channel_cases sr samples c vb h r hr with ⟨hs, rfl⟩ |
    ⟨hs, inp, out, s, o, a, b, d, _, _, _, hpo, hpa, hpb, hpd, _, _, _, _, rfl⟩
  · exact ⟨rfl, fun _ => rfl, fun _ _ => rfl⟩
  · refine ⟨rfl, ?_, ?_⟩
    · intro h1
      rw [hs] at h1
      cases h1
    · intro k hk
      simp only [written, hpo, hpa, hpb, hpd, List.mem_cons, Option.some.injEq,
        List.mem_singleton, List.not_mem_nil, or_false, not_or] at hk
      exact publish_getElem? sr c h o a b d s k hk.1 hk.2.1 hk.2.2.1 hk.2.2.2

theorem set_getElem?_self (chs : List channel_t) (j : Nat) (c : channel_t)
    (hc : chs[j]? = some c) : chs.set j c = chs := by
  apply List.ext_getElem?
  intro k
  rw [List.getElem?_set]
  by_cases hk : j = k
  · subst hk
    have hlt : j < chs.length := by
      rcases Nat.lt_or_ge j chs.length with h1 | h1
      · exact h1
      · rw [List.getElem?_eq_none h1] at hc; cases hc
    simp [hlt, hc]
  · simp [hk]

theorem process_step_frame (samples j : Nat) (w w1 : World) (chs : List channel_t)
    (hv : w.plug.vChannels = some chs) (h : process_step samples j w = .ok w1) :
    ∃ cj cj1, chs[j]? = some cj ∧ w1.plug.vChannels = some (chs.set j cj1) ∧
      wiring cj1 = wiring cj ∧
      w1.plug.nChannels = w.plug.nChannels ∧
      (∀ c1, skipped w1.host c1 = skipped w.host c1) ∧
      (skipped w.host cj = true → w1 = w) ∧
      (∀ k, some k ∉ written cj → w1.host[k]? = w.host[k]?) := by
  obtain ⟨chs0, cj, r, hchs, hc, hr, rfl⟩ := process_step_eq_ok samples j w w1 h
  rw [hv] at hchs
  cases hchs
  obtain ⟨hw, hskip, hframe⟩ := process_channel_frame _ _ _ _ _ _ hr
  refine ⟨cj, r.c, hc, rfl, hw, rfl, ?_, ?_, hframe⟩
  · intro c1
    exact skipped_after_channel _ _ _ _ _ _ hr c1
  · intro hs
    have := hskip hs
    subst this
    obtain ⟨p, hh⟩ := w
    simp only at hv
    simp only [set_getElem?_self chs j cj hc, ← hv]

theorem steps_cons (samples j : Nat) (js : List Nat) (w : World) :
    steps samples (j :: js) w = (do let w1 ← process_step samples j w; steps samples js w1) := by
  simp only [steps, List.foldlM_cons]

theorem steps_frame (samples i : Nat) (c : channel_t) :
    ∀ (js : List Nat) (w w1 : World) (chs : List channel_t),
      w.plug.vChannels = some chs → chs[i]? = some c → (∀ j ∈ js, j ≠ i) →
      steps samples js w = .ok w1 →
      ∃ chs1, w1.plug.vChannels = some chs1 ∧ chs1[i]? = some c ∧
        (∀ j : Nat, (chs1[j]?).map wiring = (chs[j]?).map wiring) ∧
        (∀ c1, skipped w1.host c1 = skipped w.host c1) ∧
        ∀ k, (∀ j cj, j ≠ i → chs[j]? = some cj →
            skipped w.host cj = true ∨ some k ∉ written cj) →
          w1.host[k]? = w.host[k]? := by
  intro js
  induction js with
  | nil =>
    intro w w1 chs hv hc _ hs
    simp only [steps, List.foldlM_nil, pure, Except.pure] at hs
    cases hs
    exact ⟨chs, hv, hc, fun _ => rfl, fun _ => rfl, fun _ _ => rfl⟩
  | cons j js ih =>
    intro w w1 chs hv hc hne hs0
    rw [steps_cons] at hs0
    obtain ⟨w2, h2, hs⟩ := (bind_eq_ok _ _ _).mp hs0
    clear hs0
    obtain ⟨cj, cj1, hcj, hv2, hwire, _, hskip, hid, hframe⟩ :=
      process_step_frame samples j w w2 chs hv h2
    have hji : j ≠ i := hne j (List.mem_cons_self _ _)
    have hc2 : (chs.set j cj1)[i]? = some c := by
      rw [List.getElem?_set_ne hji]; exact hc
    have hwire2 : ∀ j1 : Nat, ((chs.set j cj1)[j1]?).map wiring = (chs[j1]?).map wiring := by
      intro j1
      by_cases hj : j = j1
      · subst hj
        have hlt : j < chs.length := by
          rcases Nat.lt_or_ge j chs.length with h1 | h1
          · exact h1
          · rw [List.getElem?_eq_none h1] at hcj; cases hcj
        simp [List.getElem?_set, hlt, hcj, hwire]
      · rw [List.getElem?_set_ne hj]
    obtain ⟨chs1, hv1, hc1, hw1, hs1, hf1⟩ :=
      ih w2 w1 (chs.set j cj1) hv2 hc2 (fun j1 hj1 => hne j1 (List.mem_cons_of_mem _ hj1)) hs
    refine ⟨chs1, hv1, hc1, ?_, ?_, ?_⟩
    · intro j1
      rw [hw1 j1, hwire2 j1]
    · intro c1
      rw [hs1 c1, hskip c1]
    · intro k hk
      have hk2 : ∀ j1 cj2, j1 ≠ i → (chs.set j cj1)[j1]? = some cj2 →
          skipped w2.host cj2 = true ∨ some k ∉ written cj2 := by
        intro j1 cj2 hj1 hcj2
        have hm := hwire2 j1
        rw [hcj2] at hm
        cases hcs : chs[j1]? with
        | none => rw [hcs] at hm; cases hm
        | some cj0 =>
          rw [hcs] at hm
          simp only [Option.map_some', Option.some.injEq] at hm
          obtain ⟨hsk, hwr⟩ := wiring_skipped w.host cj2 cj0 hm
          rw [hskip cj2, hsk, hwr]
          exact hk j1 cj0 hj1 hcs
      rw [hf1 k hk2]
      rcases hk j cj hji hcj with hsk | hnw
      · rw [hid hsk]
      · exact hframe k hnw

theorem steps_without_skipped (samples i : Nat) (c : channel_t) :
    ∀ (js : List Nat) (w w1 : World) (chs : List channel_t),
      w.plug.vChannels = some chs → chs[i]? = some c → skipped w.host c = true →
      steps samples js w = .ok w1 →
      steps samples (js.filter (fun j => j ≠ i)) w = .ok w1 := by
  intro js
  induction js with
  | nil =>
    intro w w1 chs _ _ _ hs
    exact hs
  | cons j js ih =>
    intro w w1 chs hv hc hsk hs0
    rw [steps_cons] at hs0
    obtain ⟨w2, h2, hs⟩ := (bind_eq_ok _ _ _).mp hs0
    clear hs0
    obtain ⟨cj, cj1, hcj, hv2, hwire, _, hskip, hid, _⟩ :=
      process_step_frame samples j w w2 chs hv h2
    by_cases hji : j = i
    · subst hji
      rw [hc] at hcj
      cases hcj
      have hw2 := hid hsk
      subst hw2
      have : List.filter (fun j1 => decide (j1 ≠ j)) (j :: js)
          = List.filter (fun j1 => decide (j1 ≠ j)) js := by
        simp
      rw [this]
      exact ih w2 w1 chs hv hc hsk hs
    · have hc2 : (chs.set j cj1)[i]? = some c := by
        rw [List.getElem?_set_ne hji]; exact hc
      have hsk2 : skipped w2.host c = true := by rw [hskip c]; exact hsk
      have : List.filter (fun j1 => decide (j1 ≠ i)) (j :: js)
          = j :: List.filter (fun j1 => decide (j1 ≠ i)) js := by
        simp [hji]
      rw [this, steps_cons, h2]
      exact ih w2 w1 (chs.set j cj1) hv2 hc2 hsk2 hs

/-- C5 (amended): in a `process` call that returns, a channel whose input or output
buffer is null is skipped: the channel (its Delay Line and Crossfader included) is
unchanged, every port that no other processed channel writes keeps its buffer and its
value (so the skipped channel's output buffer and level meters, and the shared
output-delay meter when no other channel is processed), and the call has exactly the
effect of the iterations of the remaining channels. -/
theorem C5_null_buffer_skips_channel (samples : Nat) (w w1 : World) (chs : List channel_t)
    (i : Nat) (c : channel_t)
    (hv : w.plug.vChannels = some chs) (hc : chs[i]? = some c)
    (hs : skipped w.host c = true) (hp : process samples w = .ok w1) :
    (∃ chs1, w1.plug.vChannels = some chs1 ∧ chs1[i]? = some c) ∧
    (∀ k, (∀ j cj, j ≠ i → chs[j]? = some cj →
        skipped w.host cj = true ∨ some k ∉ written cj) →
      w1.host[k]? = w.host[k]?) ∧
    steps samples ((List.range w.plug.nChannels).filter (fun j => j ≠ i)) w = .ok w1 := by
  have h1 : steps samples (List.range w.plug.nChannels) w = .ok w1 := hp
  have h2 := steps_without_skipped samples i c _ w w1 chs hv hc hs h1
  obtain ⟨chs1, hv1, hc1, _, _, hf⟩ := steps_frame samples i c _ w w1 chs hv hc
    (by
      intro j hj
      simpa using (List.mem_filter.mp hj).2) h2
  exact ⟨⟨chs1, hv1, hc1⟩, hf, h2⟩

theorem left_unbound_world_eq :
    stereo_setup 48000 left_unbound_host = .ok left_unbound_world := by
  decide!

/-- C5 (counterexample): in a stereo engine whose left input buffer is null, the left
channel is skipped and the right one processed; both share the output-delay meter
(port 9), which held 0 and reads 10 ms after `process(1)`: the skipped channel's
output-delay meter does not keep its previous value. -/
theorem C5_shared_delay_meter_is_rewritten :
    stereo_setup 48000 left_unbound_host = .ok left_unbound_world ∧
    skipped left_unbound_host (ch_left_unbound 0) = true ∧
    skipped left_unbound_host (ch_left_unbound 1) = false ∧
    (ch_left_unbound 0).pOutDelay = some 9 ∧
    value_at left_unbound_host (some 9) = 0 ∧
    (process 1 left_unbound_world).map (fun w => value_at w.host (some 9)) = .ok 10 := by
  decide!

theorem left_unbound_private (k : Nat) (hk : k = 2 ∨ k = 10 ∨ k = 11) :
    ∀ j cj, j ≠ 0 → [ch_left_unbound 0, ch_left_unbound 1][j]? = some cj →
      skipped left_unbound_world.host cj = true ∨ some k ∉ written cj := by
  intro j cj hj hcj
  match j, hj, hcj with
  | 1, _, hcj =>
    simp only [List.getElem?_cons_succ, List.getElem?_cons_zero, Option.some.injEq] at hcj
    subst hcj
    right
    rcases hk with rfl | rfl | rfl <;> decide
  | j + 2, _, hcj => simp at hcj

/-- C5 (witness): the amended statement applied to the stereo instance whose left input is
unbound, for its left channel, in a `process(1)` call; the ports 2, 10 and 11 (left
output, left level meters) are written by no other channel and keep their state. -/
theorem C5_null_buffer_witness :
    left_unbound_world.plug.vChannels = some [ch_left_unbound 0, ch_left_unbound 1] ∧
    [ch_left_unbound 0, ch_left_unbound 1][0]? = some (ch_left_unbound 0) ∧
    skipped left_unbound_world.host (ch_left_unbound 0) = true ∧
    ∃ w1, process 1 left_unbound_world = .ok w1 ∧
      w1.host[2]? = left_unbound_world.host[2]? ∧
      w1.host[10]? = left_unbound_world.host[10]? ∧
      w1.host[11]? = left_unbound_world.host[11]? ∧
      (∃ chs1, w1.plug.vChannels = some chs1 ∧ chs1[0]? = some (ch_left_unbound 0)) ∧
      (∀ k, (∀ j cj, j ≠ 0 → [ch_left_unbound 0, ch_left_unbound 1][j]? = some cj →
          skipped left_unbound_world.host cj = true ∨ some k ∉ written cj) →
        w1.host[k]? = left_unbound_world.host[k]?) ∧
      steps 1 ((List.range left_unbound_world.plug.nChannels).filter (fun j => j ≠ 0))
        left_unbound_world = .ok w1 := by
  obtain ⟨w1, hp⟩ := returns_ok (process 1 left_unbound_world) (by decide!)
  have hthm := C5_null_buffer_skips_channel 1 left_unbound_world w1
    [ch_left_unbound 0, ch_left_unbound 1] 0 (ch_left_unbound 0) rfl rfl (by decide!) hp
  exact ⟨rfl, rfl, by decide!, w1, hp,
    hthm.2.1 2 (left_unbound_private 2 (Or.inl rfl)),
    hthm.2.1 10 (left_unbound_private 10 (Or.inr (Or.inl rfl))),
    hthm.2.1 11 (left_unbound_private 11 (Or.inr (Or.inr rfl))), hthm⟩

/-! ### Independence from the scratch buffer -/

theorem process_chunk_bounds (c : channel_t) (inp : List ℚ) (samples : Nat) (s s1 : LoopState)
    (h : process_chunk c inp samples s = .ok s1) :
    s.n + lsp_min (samples - s.n) BUFFER_SIZE ≤ s.out.length ∧
    s1.out.length = s.out.length ∧
    ∀ buf, s.vBuffer = some buf → ∃ buf1, s1.vBuffer = some buf1 ∧ buf1.length = buf.length := by
  obtain ⟨_, _, ⟨buf, hbuf, hsb⟩, hin⟩ := process_chunk_eq_ok c inp samples s s1 h
  have hcs : lsp_min (samples - s.n) BUFFER_SIZE ≤ samples := by
    have := lsp_min_le_left (samples - s.n) BUFFER_SIZE
    omega
  by_cases hout : s.n + lsp_min (samples - s.n) BUFFER_SIZE ≤ s.out.length
  · rw [process_chunk_ok c inp buf samples s hbuf hsb hin hout] at h
    cases h
    refine ⟨hout, ?_, ?_⟩
    · simp only [chunk_closed]
      rw [List.length_append, List.length_append, bypass_process_length,
        take_drop_length (by omega : s.n + lsp_min (samples - s.n) BUFFER_SIZE ≤ inp.length)]
      have hm := mixed_length c.fDryGain
        ((s.sLine.process_ramping ((inp.drop s.n).take samples) c.fWetGain
          (to_size_t c.nDelay)).2 ++ buf.drop samples) inp s.n
        (lsp_min (samples - s.n) BUFFER_SIZE) (by omega)
        (by
          rw [List.length_append, process_ramping_length, take_drop_length hin,
            List.length_drop]
          omega)
      rw [List.length_append, process_ramping_length, take_drop_length hin,
        List.length_drop] at hm
      simp only [List.length_take, List.length_drop, hm]
      omega
    · intro buf0 hb0
      rw [hbuf] at hb0
      cases hb0
      refine ⟨_, rfl, ?_⟩
      rw [mixed_length _ _ _ _ _ (by omega)
        (by
          rw [List.length_append, process_ramping_length, take_drop_length hin,
            List.length_drop]
          omega)]
      rw [List.length_append, process_ramping_length, take_drop_length hin, List.length_drop]
      omega
  · exfalso
    unfold process_chunk at h
    simp only [] at h
    obtain ⟨buf0, _, h⟩ := (bind_eq_ok _ _ _).mp h
    obtain ⟨src, _, h⟩ := (bind_eq_ok _ _ _).mp h
    obtain ⟨buf1, _, h⟩ := (bind_eq_ok _ _ _).mp h
    obtain ⟨buf2, _, h⟩ := (bind_eq_ok _ _ _).mp h
    obtain ⟨a, _, h⟩ := (bind_eq_ok _ _ _).mp h
    obtain ⟨b, _, h⟩ := (bind_eq_ok _ _ _).mp h
    obtain ⟨dry, hdry, h⟩ := (bind_eq_ok _ _ _).mp h
    obtain ⟨wet, hwet, h⟩ := (bind_eq_ok _ _ _).mp h
    obtain ⟨out, hwr, h⟩ := (bind_eq_ok _ _ _).mp h
    obtain ⟨hdl, rfl⟩ := rd_eq_ok hdry
    obtain ⟨hwl, rfl⟩ := rd_eq_ok hwet
    obtain ⟨hw, _⟩ := wr_eq_ok hwr
    rw [bypass_process_length, take_drop_length hdl, take_drop_length hwl, Nat.min_self] at hw
    exact hout hw

theorem process_loop_scratch (c : channel_t) (inp : List ℚ) (samples : Nat) :
    ∀ (fuel : Nat) (s s1 : LoopState) (buf : List ℚ),
      process_loop c inp samples fuel s = .ok s1 → s.vBuffer = some buf →
      ∃ buf1, s1.vBuffer = some buf1 ∧ buf1.length = buf.length := by
  intro fuel
  induction fuel with
  | zero =>
    intro s s1 buf h hb
    by_cases h1 : s.n < samples
    · simp [process_loop, h1] at h
    · simp only [process_loop, h1, if_false] at h
      cases h
      exact ⟨buf, hb, rfl⟩
  | succ fuel ih =>
    intro s s1 buf h hb
    by_cases h1 : s.n < samples
    · simp only [process_loop, h1, if_true] at h
      obtain ⟨s2, h2, h3⟩ := (bind_eq_ok _ _ _).mp h
      obtain ⟨_, _, hsc⟩ := process_chunk_bounds c inp samples s s2 h2
      obtain ⟨buf2, hb2, hl2⟩ := hsc buf hb
      obtain ⟨buf1, hb1, hl1⟩ := ih s2 s1 buf2 h3 hb2
      exact ⟨buf1, hb1, by rw [hl1, hl2]⟩
    · simp only [process_loop, h1, if_false] at h
      cases h
      exact ⟨buf, hb, rfl⟩

theorem process_channel_scratch (sr : Int) (samples : Nat) (c : channel_t) (buf : List ℚ)
    (h : Host) (r : ChannelResult) (hr : process_channel sr samples c (some buf) h = .ok r) :
    ∃ buf1, r.vBuffer = some buf1 ∧ buf1.length = buf.length := by
  rcases process_channel_cases sr samples c (some buf) h r hr with ⟨_, rfl⟩ |
    ⟨_, inp, out, s, o, a, b, d, _, _, hl, _, _, _, _, _, _, _, _, rfl⟩
  · exact ⟨buf, rfl, rfl⟩
  · exact process_loop_scratch c inp samples samples _ s buf hl rfl

theorem frame_reads (h h1 : Host) (p : Option Nat)
    (hf : ∀ k, p = some k → h1[k]? = h[k]?) :
    buffer_at h1 p = buffer_at h p ∧ value_at h1 p = value_at h p := by
  cases p with
  | none => exact ⟨rfl, rfl⟩
  | some k =>
    rw [buffer_at_some, buffer_at_some, value_at_some, value_at_some, hf k rfl]
    exact ⟨rfl, rfl⟩

theorem process_loop_out_length (c : channel_t) (inp : List ℚ) (samples : Nat) :
    ∀ (fuel : Nat) (s s1 : LoopState), process_loop c inp samples fuel s = .ok s1 →
      s1.out.length = s.out.length := by
  intro fuel
  induction fuel with
  | zero =>
    intro s s1 h
    by_cases h1 : s.n < samples
    · simp [process_loop, h1] at h
    · simp only [process_loop, h1, if_false] at h
      cases h
      rfl
  | succ fuel ih =>
    intro s s1 h
    by_cases h1 : s.n < samples
    · simp only [process_loop, h1, if_true] at h
      obtain ⟨s2, h2, h3⟩ := (bind_eq_ok _ _ _).mp h
      obtain ⟨_, hl, _⟩ := process_chunk_bounds c inp samples s s2 h2
      rw [ih s2 s1 h3, hl]
    · simp only [process_loop, h1, if_false] at h
      cases h
      rfl

theorem publish_length (sr : Int) (c : channel_t) (h : Host) (o a b d : Nat) (s : LoopState) :
    (publish sr c h o a b d s).length = h.length := by
  unfold publish
  rw [poke_value_length, poke_value_length, poke_value_length, poke_buffer_length]

theorem block_ready_process (li lo n : Nat) (w : World) (hw : block_ready li lo w)
    (hn : n ≤ BUFFER_SIZE) (hli : n ≤ li) (hlo : n ≤ lo) :
    ∃ w1, process n w = .ok w1 ∧ block_ready li lo w1 := by
  obtain ⟨c, buf, inp, out, a, b, d, h1, hv, hvb, hlen, hi, ho, ha, hal, hb, hbl, hd, hdl,
    hnw, hil, hol⟩ := hw
  obtain ⟨r, hr⟩ := process_channel_fits w.plug.fSampleRate n c buf w.host a b d inp out hi ho
    ha hal hb hbl hd hdl hlen hn (by omega) (by omega)
  have hstep : process n w
      = .ok { plug := { w.plug with vChannels := some [r.c], vBuffer := r.vBuffer },
              host := r.host } := by
    unfold process
    rw [h1, for_each_one]
    unfold process_step
    simp only [hv, hvb, nonnull, index, List.getElem?_cons_zero, bind, Except.bind, hr, pure,
      Except.pure, List.set_cons_zero]
  refine ⟨_, hstep, ?_⟩
  obtain ⟨buf1, hb1, hl1⟩ := process_channel_scratch _ n c buf w.host r hr
  obtain ⟨hwire, _, hframe⟩ := process_channel_frame _ n c (some buf) w.host r hr
  obtain ⟨s, o, a1, b1, d1, hloop, hpo, hpa, hpb, hpd, hol1, _, _, _, hreq⟩ :=
    process_channel_eq_ok _ n c (some buf) w.host r inp out hi ho hr
  have hlenh : r.host.length = w.host.length := by
    rw [hreq]; exact publish_length _ _ _ _ _ _ _ _
  have hrc : r.c.pIn = c.pIn ∧ r.c.pOut = c.pOut ∧ r.c.pInLevel = c.pInLevel ∧
      r.c.pOutLevel = c.pOutLevel ∧ r.c.pOutDelay = c.pOutDelay := by
    rw [hreq]; exact ⟨rfl, rfl, rfl, rfl, rfl⟩
  obtain ⟨e1, e2, e3, e4, e5⟩ := hrc
  have hin1 : buffer_at r.host c.pIn = some inp := by
    rw [← hi]
    refine (frame_reads w.host r.host c.pIn ?_).1
    intro k hk
    apply hframe k
    rw [← hk]
    exact hnw
  have hout1 : buffer_at r.host c.pOut = some s.out := by
    rw [hreq, hpo]
    simp only [publish, buffer_at_poke_value]
    exact buffer_at_poke_buffer _ _ _ hol1
  refine ⟨r.c, buf1, inp, s.out, a, b, d, h1, rfl, hb1, by rw [hl1, hlen], ?_, ?_, ?_, ?_, ?_,
    ?_, ?_, ?_, ?_, hil, ?_⟩
  · rw [e1]; exact hin1
  · rw [e2]; exact hout1
  · rw [e3]; exact ha
  · rw [hlenh]; exact hal
  · rw [e4]; exact hb
  · rw [hlenh]; exact hbl
  · rw [e5]; exact hd
  · rw [hlenh]; exact hdl
  · simp only [written, e1, e2, e3, e4, e5]
    exact hnw
  · rw [process_loop_out_length c inp n n _ s hloop]
    exact hol

theorem buffer_at_next (a : Nat) (h : Host) (p : Option Nat) :
    buffer_at (h.map (fun q => { q with pBuffer := q.pBuffer.map (List.drop a) })) p
      = (buffer_at h p).map (List.drop a) := by
  cases p with
  | none => rfl
  | some k =>
    rw [buffer_at_some, buffer_at_some, List.getElem?_map]
    cases h[k]? with
    | none => rfl
    | some q => rfl

theorem block_ready_next (li lo n : Nat) (w : World) (hw : block_ready li lo w) :
    block_ready (li - n) (lo - n) (next_block n w) := by
  obtain ⟨c, buf, inp, out, a, b, d, h1, hv, hvb, hlen, hi, ho, ha, hal, hb, hbl, hd, hdl,
    hnw, hil, hol⟩ := hw
  refine ⟨c, buf, inp.drop n, out.drop n, a, b, d, h1, hv, hvb, hlen, ?_, ?_, ha, ?_, hb, ?_,
    hd, ?_, hnw, ?_, ?_⟩
  · simp only [next_block, buffer_at_next, hi, Option.map_some']
  · simp only [next_block, buffer_at_next, ho, Option.map_some']
  · simp only [next_block, List.length_map]; exact hal
  · simp only [next_block, List.length_map]; exact hbl
  · simp only [next_block, List.length_map]; exact hdl
  · rw [List.length_drop, hil]
  · rw [List.length_drop, hol]

theorem long_world_ready : block_ready 4097 4097 long_world :=
  ⟨ch_mono 48000, List.replicate BUFFER_SIZE 0, List.replicate 4097 0, List.replicate 4097 0,
    8, 9, 7, rfl, rfl, rfl, List.length_replicate _ _, rfl, rfl, rfl, by decide, rfl,
    by decide, rfl, by decide, by decide, List.length_replicate _ _,
    List.length_replicate _ _⟩

/-- C2 (fails on the code): on a mono instance at 48 kHz with blocks of 4097 samples, the
split calls `process(4096)` and then `process(1)` on the buffers advanced by 4096 samples
both return, whereas the single call `process(4097)` returns no output: its first chunk
feeds the Delay Line `samples` = 4097 samples instead of `count` = 4096 and overruns the
scratch buffer. -/
theorem C2_single_call_fails_where_split_calls_return :
    mono_setup 48000 (mono_host long_block long_block 0 0 0 1 1 0) = .ok long_world ∧
    process 4097 long_world = .error (.overrun .process_ramping .vBuffer 4097 BUFFER_SIZE) ∧
    ∃ w1 w2, process 4096 long_world = .ok w1 ∧ process 1 (next_block 4096 w1) = .ok w2 := by
  refine ⟨mono_setup_eq long_block long_block, ?_, ?_⟩
  · simp only [long_world, process, for_each_one, process_step, nonnull, index,
      List.getElem?_cons_zero, bind, Except.bind, mono_long_block_overrun]
  · obtain ⟨w1, h1, hr1⟩ := block_ready_process 4097 4097 4096 long_world long_world_ready
      (by decide) (by decide) (by decide)
    obtain ⟨w2, h2, _⟩ := block_ready_process (4097 - 4096) (4097 - 4096) 1
      (next_block 4096 w1) (block_ready_next 4097 4097 4096 w1 hr1)
      (by decide) (by decide) (by decide)
    exact ⟨w1, w2, h1, h2⟩

/-! ### C14: iterations of the chunk loop -/

end NeuralAmp
